import Mathlib

/-!
Verification of the `xsu-lily` version-control engine ("Garden") against its
specification.  The Rust sources are shallowly embedded: Rust `String`s are
modelled as `List Char`, fallible or panicking code returns `Option`, and the
file system / SQL store are modelled as explicit association lists.

The embedding covers:
* `src/crates/xsu-lily/src/patch.rs` — `ChangeMode`, `Change`, `PatchFile`,
  `PatchFile::apply`, `Patch`, `Patch::from_file` (the line diff of the
  third-party `similar` crate, `TextDiff::from_lines`, is modelled by an
  LCS-based minimal line diff over newline-terminated line tokens, which is
  the documented behaviour of that crate);
* `src/crates/xsu-lily/src/garden.rs` — the patch-building loops of
  `Garden::create_commit`, the stage/local file wiring of `Garden::new`,
  the row lookups `get_branch` / `get_branch_by_name` / `get_commit`, and
  `serialize` / `deserialize`;
* `src/crates/xsu-lily/src/stage.rs` — `Stage::add_glob`.
-/

namespace Lily

/-- Rust `String` values are modelled as lists of characters. -/
abbrev Str := List Char

/-- Rust `str::split(sep)` for a one-character separator: the empty string
yields one empty piece, and a trailing separator yields a trailing empty
piece. -/
def splitOnChar (sep : Char) : Str → List Str
  | [] => [[]]
  | c :: rest =>
    if c = sep then [] :: splitOnChar sep rest
    else
      match splitOnChar sep rest with
      | [] => [[c]]
      | l :: ls => (c :: l) :: ls

/-- Rust `source.split("\n")` as used by `PatchFile::apply`. -/
def splitNl : Str → List Str := splitOnChar '\n'

/-- Rust `Vec::join("\n")` on the line list (`lines.join("\n")` in
`PatchFile::apply`). -/
def joinNl (ls : List Str) : Str := List.intercalate ['\n'] ls

/-- Line tokenizer of the third-party `similar` crate used by
`Patch::from_file` (`TextDiff::from_lines`): every token is a line INCLUDING
its terminating newline character; a final line with no newline is a token of
its own; the empty string has no tokens.  (The crate also groups `\r\n`;
carriage returns play no role in any claim.) -/
def splitLines : Str → List Str
  | [] => []
  | c :: rest =>
    if c = '\n' then ['\n'] :: splitLines rest
    else
      match splitLines rest with
      | [] => [[c]]
      | l :: ls => (c :: l) :: ls

/-- `ChangeMode` from `patch.rs`: something was added or deleted. -/
inductive ChangeMode
  | Added
  | Deleted
deriving DecidableEq, Repr

/-- `Change` from `patch.rs`: `(line number, mode, line)`. -/
abbrev Change := Nat × ChangeMode × Str

/-- `PatchFile` from `patch.rs`: `(old content, changes)`. -/
structure PatchFile where
  old : Str
  changes : List Change
deriving DecidableEq, Repr

/-- One iteration of the replay loop in `PatchFile::apply`.  For `Added`,
`lines.insert(i, text)` is guarded by `i > lines.len()` (append instead), so
it never panics; for `Deleted`, `lines.remove(i)` panics when `i` is out of
range — the panic is modelled as `none`. -/
def applyChange (lines : List Str) (c : Change) : Option (List Str) :=
  match c.2.1 with
  | ChangeMode.Added =>
    if c.1 > lines.length then some (lines ++ [c.2.2])
    else some (lines.insertIdx c.1 c.2.2)
  | ChangeMode.Deleted =>
    if c.1 < lines.length then some (lines.eraseIdx c.1) else none

/-- `PatchFile::apply`: split the source on `"\n"`, replay every change in
stored order, join with `"\n"`.  `none` models a panic of `Vec::remove`. -/
def PatchFile.apply (pf : PatchFile) (source : Str) : Option Str := do
  let lines ← pf.changes.foldlM applyChange (splitNl source)
  pure (joinNl lines)

/-- Length of a longest common subsequence of two token lists; used to model
the minimal line diff computed by `similar::TextDiff::from_lines`. -/
def lcsLen : List Str → List Str → Nat
  | [], _ => 0
  | _, [] => 0
  | a :: as, b :: bs =>
    if a = b then lcsLen as bs + 1
    else max (lcsLen (a :: as) bs) (lcsLen as (b :: bs))
termination_by l1 l2 => l1.length + l2.length

/-- Change list produced by iterating `diff.iter_all_changes()` in
`Patch::from_file`: equal tokens are skipped (`ChangeTag::Equal` hits
`continue`), a deleted token is recorded at its old-text index
(`change.old_index()`), an inserted token at its new-text index
(`change.new_index()`), exactly as `from_file` stores them.  The diff itself
is the LCS-minimal edit script with deletions emitted before insertions,
which is what the Myers diff of the `similar` crate yields.  `i` and `j`
track the current old-text and new-text token indices. -/
def diffChanges : List Str → List Str → Nat → Nat → List Change
  | [], [], _, _ => []
  | [], b :: bs, _, j => (j, ChangeMode.Added, b) :: diffChanges [] bs 0 (j + 1)
  | a :: as, [], i, _ => (i, ChangeMode.Deleted, a) :: diffChanges as [] (i + 1) 0
  | a :: as, b :: bs, i, j =>
    if a = b then diffChanges as bs (i + 1) (j + 1)
    else if lcsLen as (b :: bs) ≥ lcsLen (a :: as) bs then
      (i, ChangeMode.Deleted, a) :: diffChanges as (b :: bs) (i + 1) j
    else
      (j, ChangeMode.Added, b) :: diffChanges (a :: as) bs i (j + 1)
termination_by l1 l2 => l1.length + l2.length

/-- Lexicographic strict order on `Str`, the key order of Rust
`BTreeMap<String, _>`. -/
def strLt : Str → Str → Bool
  | [], [] => false
  | [], _ :: _ => true
  | _ :: _, [] => false
  | a :: as, b :: bs => if a < b then true else if b < a then false else strLt as bs

/-- `BTreeMap::insert` on an association list kept in key order: replace the
value of an existing key, otherwise insert at the ordered position. -/
def mapInsert (k : Str) (v : PatchFile) : List (Str × PatchFile) → List (Str × PatchFile)
  | [] => [(k, v)]
  | (k₀, v₀) :: rest =>
    if k = k₀ then (k, v) :: rest
    else if strLt k k₀ then (k, v) :: (k₀, v₀) :: rest
    else (k₀, v₀) :: mapInsert k v rest

/-- `BTreeMap::get` on the association list. -/
def mapLookup (m : List (Str × PatchFile)) (k : Str) : Option PatchFile :=
  (m.find? fun e => e.1 = k).map (·.2)

/-- `Patch` from `patch.rs`: an ordered map from file path to `PatchFile`. -/
structure Patch where
  files : List (Str × PatchFile)
deriving DecidableEq, Repr

/-- `Patch::from_file(path, old, new)`: insert `(path, PatchFile(old, []))`
into an empty map, then push one change per non-equal diff token — a
`Deleted` at its old index or an `Added` at its new index. -/
def Patch.from_file (path old new : Str) : Patch :=
  { files := [(path, ⟨old, diffChanges (splitLines old) (splitLines new) 0 0⟩)] }

/-! ### `Garden::create_commit` — patch building (garden.rs lines 862-924) -/

/-- Contents of the latest commit's Pack as opened by `Pack::from_file`: an
ordered map from file path to file content. -/
abbrev PackMap := List (Str × Str)

/-- `BTreeMap::get` on a pack (`latest_pack.get(file)`). -/
def packGet (pack : PackMap) (k : Str) : Option Str :=
  (pack.find? fun e => e.1 == k).map (·.2)

/-- One iteration of the staged-files loop of `Garden::create_commit`
(garden.rs lines 876-906): skip empty stage entries, look the file up in the
previous pack (empty string when absent), record the file name, diff the
previous content against the on-disk content (`fs::read(file)`, empty string
on read failure), and merge every `PatchFile` of the resulting one-file patch
into the accumulator — skipping `PatchFile`s with an empty change list.  The
accumulator is the pair `(patch, file_names)`. -/
def stagedStep (latestPack : PackMap) (readFile : Str → Option Str)
    (acc : Patch × List Str) (file : Str) : Patch × List Str :=
  if file = [] then acc
  else
    let previous := (packGet latestPack file).getD []
    let fileNames := acc.2 ++ [file]
    let filePatch := Patch.from_file file previous ((readFile file).getD [])
    let patch := filePatch.files.foldl
      (fun p e =>
        if e.2.changes.length = 0 then p
        else { files := mapInsert e.1 e.2 p.files })
      acc.1
    (patch, fileNames)

/-- One iteration of the deleted-files loop of `Garden::create_commit`
(garden.rs lines 909-924): for a previous-pack entry whose path was not seen
in the staged loop, synthesize the full-deletion diff of its old content
against the empty string and merge every `PatchFile` of it in — with NO check
on the change list. -/
def deletedStep (fileNames : List Str) (patch : Patch) (e : Str × Str) : Patch :=
  if fileNames.contains e.1 then patch
  else
    let filePatch := Patch.from_file e.1 e.2 []
    filePatch.files.foldl
      (fun p en => { files := mapInsert en.1 en.2 p.files }) patch

/-- The Patch assembled by `Garden::create_commit` before it is serialized
into the commit row: the staged-files loop over the stage list followed by
the deleted-files loop over the previous pack.  `files` is the stage list
(`self.stage.get_files()`), `latestPack` the opened previous Pack, and
`readFile` the working-tree read (`fs::read`). -/
def createCommitPatch (files : List Str) (latestPack : PackMap)
    (readFile : Str → Option Str) : Patch :=
  let r := files.foldl (stagedStep latestPack readFile) (⟨[]⟩, [])
  latestPack.foldl (deletedStep r.2) r.1

/-! ### `Garden::new` — stage/local file wiring, and the file-system effect
of `Garden::create_commit` (garden.rs lines 161-215 and 926-935) -/

/-- Path wired into `Stage` by `Garden::new` (garden.rs line 212). -/
def gardenStagePath (source : Str) : Str := source ++ "/.garden/stagefile".data

/-- Path wired into `LocalStage` by `Garden::new` (garden.rs line 213) — the
source gives `LocalStage` the STAGE file path, not the local file path. -/
def gardenLocalPath (source : Str) : Str := source ++ "/.garden/stagefile".data

/-- Path of the `localfile` created by `Garden::new` for unsynced commit ids
(garden.rs line 185). -/
def gardenLocalFilePath (source : Str) : Str := source ++ "/.garden/localfile".data

/-- Path of the Pack object written by `Pack::new` during `create_commit`. -/
def packObjectPath (source id : Str) : Str :=
  source ++ "/.garden/objects/".data ++ id

/-- Modelled from the spec: `LocalStage::add` and `fs::append`, which belong
to this repository but are absent from the provided sources (`stage.rs`
defines only `Stage`; `fs.rs` has no `append`).  Per the spec, `LocalStage`
"exposes the same `add`/`get_files` shape" as `Stage`, whose `add` appends
the entry as a newline-prefixed line to the backing file, and the Local list
is a flat newline-delimited append-only list of commit ids. -/
def localStageAdd (backing : Str) (id : Str) (fs : Str → Str) : Str → Str :=
  fun p => if p = backing then fs p ++ '\n' :: id else fs p

/-- File-system effect of `Garden::create_commit` on a garden built by
`Garden::new`: `self.local.add(id)` appends the fresh id to the file wired
into `LocalStage`, and `Pack::new` writes the snapshot object under
`.garden/objects/{id}`; the commit row itself goes to the SQL store, not to
any of these flat files.  `fs` maps a path to the file content at that
path. -/
def createCommitFsEffect (source id packBytes : Str) (fs : Str → Str) : Str → Str :=
  let fs1 := localStageAdd (gardenLocalPath source) id fs
  fun p => if p = packObjectPath source id then packBytes else fs1 p

/-! ### Decimal numerals — `u128::to_string` and `str::parse::<u128>` -/

/-- Decimal digit character of `d` (`d < 10`). -/
def digitChar (d : Nat) : Char := Char.ofNat (48 + d)

/-- Numeric value of a decimal digit character. -/
def digitVal (c : Char) : Nat := c.toNat - 48

/-- Decimal digit test. -/
def isDigit (c : Char) : Bool := 48 ≤ c.toNat && c.toNat ≤ 57

/-- Digit string of a positive natural, most significant digit first
(`natDigits 0 = []`). -/
def natDigits (n : Nat) : Str :=
  if h : n = 0 then []
  else
    have : n / 10 < n := Nat.div_lt_self (Nat.pos_of_ne_zero h) (by omega)
    natDigits (n / 10) ++ [digitChar (n % 10)]

/-- Rust `u128::to_string` (and `u128` serialized into JSON) modelled on
`Nat`. -/
def natToStr (n : Nat) : Str := if n = 0 then ['0'] else natDigits n

/-- Fold computing the value of a digit string from an initial accumulator. -/
def digitsVal (init : Nat) (s : Str) : Nat :=
  s.foldl (fun a c => a * 10 + digitVal c) init

/-- Rust `str::parse::<u128>()` modelled on `Nat`: a non-empty all-digit
string parses to its decimal value, anything else fails.  (The `+` sign and
the `u128` overflow bound of the real parser play no role for the
engine-written timestamp strings this models.) -/
def strToNat? (s : Str) : Option Nat :=
  if s ≠ [] ∧ s.all isDigit then some (digitsVal 0 s) else none

/-! ### Metadata rows and lookups (garden.rs lines 19-45 and 589-762) -/

/-- `LilyError` from `model.rs`. -/
inductive LilyError
  | MustBeUnique
  | NotAllowed
  | ValueError
  | NotFound
  | Other
deriving DecidableEq, Repr

/-- A row of the `branches` table: all three columns are TEXT. -/
structure BranchRow where
  id : Str
  name : Str
  timestamp : Str
deriving DecidableEq, Repr

/-- `Branch` from garden.rs: the timestamp is parsed into a `u128`. -/
structure Branch where
  id : Str
  name : Str
  timestamp : Nat
deriving DecidableEq, Repr

/-- A stored `content` BLOB: either the gzip-compressed JSON of a `Patch`
(the third-party serde/flate2 round-trip is modelled as an injective
encoding) or undecodable bytes. -/
inductive Blob
  | good (p : Patch)
  | bad
deriving DecidableEq, Repr

/-- A row of the `commits` table: five TEXT columns and a BLOB. -/
structure CommitRow where
  id : Str
  branch : Str
  timestamp : Str
  author : Str
  message : Str
  content : Blob
deriving DecidableEq, Repr

/-- `Commit` from garden.rs (parsed timestamp, decoded Patch). -/
structure Commit where
  id : Str
  branch : Str
  timestamp : Nat
  author : Str
  message : Str
  content : Patch
deriving DecidableEq, Repr

/-- Decode of `serde_json::from_str(&Pack::decode_vec(bytes))` applied to a
stored content BLOB. -/
def decodeBlob : Blob → Option Patch
  | Blob.good p => some p
  | Blob.bad => none

instance {ε α : Type} [DecidableEq ε] [DecidableEq α] : DecidableEq (Except ε α) :=
  fun x y =>
  match x, y with
  | Except.error a, Except.error b =>
    if h : a = b then Decidable.isTrue (by rw [h])
    else Decidable.isFalse (by intro he; cases he; exact h rfl)
  | Except.error _, Except.ok _ => Decidable.isFalse (by intro he; cases he)
  | Except.ok _, Except.error _ => Decidable.isFalse (by intro he; cases he)
  | Except.ok a, Except.ok b =>
    if h : a = b then Decidable.isTrue (by rw [h])
    else Decidable.isFalse (by intro he; cases he; exact h rfl)

/-- ASCII fragment of Rust `char` lowercasing (`str::to_lowercase`); commit
ids are lowercase hexadecimal SHA-256 strings (`utility::random_id`), so the
ASCII mapping is the relevant one. -/
def charToLower (c : Char) : Char :=
  if 65 ≤ c.toNat ∧ c.toNat ≤ 90 then Char.ofNat (c.toNat + 32) else c

/-- Rust `str::to_lowercase` (ASCII fragment). -/
def rustToLowercase (s : Str) : Str := s.map charToLower

/-- `Garden::get_branch` (garden.rs lines 589-610): `fetch_one` of
`SELECT * FROM branches WHERE id = ?` — the first stored row with that exact
id; any fetch failure (including no matching row) becomes
`LilyError::Other`.  The row timestamp is `parse::<u128>().unwrap()`-ed; the
outer `none` models that panic. -/
def get_branch (branches : List BranchRow) (id : Str) :
    Option (Except LilyError Branch) :=
  match branches.find? fun r => r.id == id with
  | none => some (Except.error LilyError.Other)
  | some row =>
    match strToNat? row.timestamp with
    | none => none
    | some t => some (Except.ok ⟨row.id, row.name, t⟩)

/-- `Garden::get_branch_by_name` (garden.rs lines 616-637): same shape with
`WHERE name = ?`. -/
def get_branch_by_name (branches : List BranchRow) (name : Str) :
    Option (Except LilyError Branch) :=
  match branches.find? fun r => r.name == name with
  | none => some (Except.error LilyError.Other)
  | some row =>
    match strToNat? row.timestamp with
    | none => none
    | some t => some (Except.ok ⟨row.id, row.name, t⟩)

/-- `Garden::get_commit` (garden.rs lines 725-762): the bound id parameter is
`id.to_lowercase()`; no matching row becomes `LilyError::Other`; an
undecodable content BLOB becomes `LilyError::ValueError`; the timestamp
`unwrap` panic is the outer `none`. -/
def get_commit (commits : List CommitRow) (id : Str) :
    Option (Except LilyError Commit) :=
  match commits.find? fun r => r.id == rustToLowercase id with
  | none => some (Except.error LilyError.Other)
  | some row =>
    match strToNat? row.timestamp with
    | none => none
    | some t =>
      match decodeBlob row.content with
      | none => some (Except.error LilyError.ValueError)
      | some p =>
        some (Except.ok ⟨row.id, row.branch, t, row.author, row.message, p⟩)

/-! ### `Garden::serialize` / `Garden::deserialize` (garden.rs lines 444-566)

The export tree under `.garden/bin/branches` is modelled structurally: a
directory per branch name holding an optional `branch.json` (a serialized
`Branch`) and one `{commit.id}.json.gz` file per commit (a gzip-compressed
serialized `Commit`); serde/flate2 encode/decode is modelled as the identity
on the structured values, which is faithful for the injective JSON round
trip the source relies on. -/

/-- A directory `.garden/bin/branches/{name}`. -/
structure SerBranchDir where
  branchJson : Option Branch
  commits : List (Str × Commit)
deriving DecidableEq, Repr

/-- The `.garden/bin/branches` directory: branch-name-keyed directories in
creation order. -/
abbrev SerTree := List (Str × SerBranchDir)

/-- Directory lookup (`read_dir` / path resolution). -/
def treeGetDir (t : SerTree) (name : Str) : Option SerBranchDir :=
  (t.find? fun e => e.1 == name).map (·.2)

/-- `fs::mkdir`: create the directory only when it does not exist yet. -/
def treeMkdir (t : SerTree) (name : Str) : SerTree :=
  match treeGetDir t name with
  | some _ => t
  | none => t ++ [(name, ⟨none, []⟩)]

/-- Replace the contents of an existing directory. -/
def treeSetDir (t : SerTree) (name : Str) (d : SerBranchDir) : SerTree :=
  t.map fun e => if e.1 == name then (name, d) else e

/-- `fs::write` of one `{id}.json.gz` file into a branch directory:
overwrite an existing file of the same name, else create it. -/
def dirWriteCommit (d : SerBranchDir) (fname : Str) (c : Commit) : SerBranchDir :=
  if (d.commits.find? fun e => e.1 == fname).isSome then
    { d with commits := d.commits.map fun e => if e.1 == fname then (fname, c) else e }
  else
    { d with commits := d.commits ++ [(fname, c)] }

/-- Stable insertion of `x` into a list sorted by `le`. -/
def insertLe {α : Type} (le : α → α → Bool) (x : α) : List α → List α
  | [] => [x]
  | y :: ys => if le x y then x :: y :: ys else y :: insertLe le x ys

/-- Stable insertion sort by `le`. -/
def insertionSort {α : Type} (le : α → α → Bool) : List α → List α
  | [] => []
  | x :: xs => insertLe le x (insertionSort le xs)

/-- `ORDER BY "timestamp" DESC` on a TEXT column: lexicographic (binary
collation) descending order of the timestamp strings. -/
def sortByTsDescB (rows : List BranchRow) : List BranchRow :=
  insertionSort (fun a b => !strLt a.timestamp b.timestamp) rows

/-- `ORDER BY "timestamp" DESC` for commit rows. -/
def sortByTsDescC (rows : List CommitRow) : List CommitRow :=
  insertionSort (fun a b => !strLt a.timestamp b.timestamp) rows

/-- Conversion of a fetched branches row into a `Branch`
(`parse::<u128>().unwrap()` on the timestamp; `none` models the panic). -/
def rowToBranch (r : BranchRow) : Option Branch :=
  (strToNat? r.timestamp).map fun t => ⟨r.id, r.name, t⟩

/-- Conversion of a fetched commits row into a `Commit`: timestamp parse
panic and content decode failure (`LilyError::ValueError`) both abort the
surrounding `serialize` (which unwraps), so both are `none` here. -/
def rowToCommit (r : CommitRow) : Option Commit :=
  match strToNat? r.timestamp with
  | none => none
  | some t =>
    match decodeBlob r.content with
    | none => none
    | some p => some ⟨r.id, r.branch, t, r.author, r.message, p⟩

/-- Total form of `rowToBranch` for canonically-written rows. -/
def branchOfRow (r : BranchRow) : Branch :=
  ⟨r.id, r.name, (strToNat? r.timestamp).getD 0⟩

/-- Total form of `rowToCommit` for canonically-written rows. -/
def commitOfRow (r : CommitRow) : Commit :=
  ⟨r.id, r.branch, (strToNat? r.timestamp).getD 0, r.author, r.message,
    (decodeBlob r.content).getD ⟨[]⟩⟩

/-- `Garden::get_all_branches` (garden.rs lines 640-672): every row, ordered
by timestamp descending, each converted to a `Branch`. -/
def get_all_branches (branches : List BranchRow) : Option (List Branch) :=
  (sortByTsDescB branches).mapM rowToBranch

/-- `Garden::get_all_commits` (garden.rs lines 804-847): rows with the given
branch name, ordered by timestamp descending, each converted to a
`Commit`. -/
def get_all_commits (commits : List CommitRow) (branch : Str) :
    Option (List Commit) :=
  (sortByTsDescC (commits.filter fun r => r.branch == branch)).mapM rowToCommit

/-- The file name of a serialized commit: `{id}.json.gz`. -/
def commitFileName (id : Str) : Str := id ++ ".json.gz".data

/-- One iteration of the branch loop of `Garden::serialize` (garden.rs lines
450-483): make the branch directory, write one `{id}.json.gz` per commit of
`get_all_commits(branch.name)`, then write `branch.json`. -/
def serializeBranchStep (commitsTable : List CommitRow) (acc : Option SerTree)
    (b : Branch) : Option SerTree :=
  match acc with
  | none => none
  | some t =>
    let t := treeMkdir t b.name
    match get_all_commits commitsTable b.name with
    | none => none
    | some cs =>
      let d := (treeGetDir t b.name).getD ⟨none, []⟩
      let d := cs.foldl (fun d c => dirWriteCommit d (commitFileName c.id) c) d
      let d := { d with branchJson := some b }
      some (treeSetDir t b.name d)

/-- `Garden::serialize`: clear `.garden/bin` and rebuild it from
`get_all_branches` and per-branch `get_all_commits`; `none` models a panic
(an unwrapped row-conversion failure). -/
def serialize (branches : List BranchRow) (commitsTable : List CommitRow) :
    Option SerTree :=
  match get_all_branches branches with
  | none => none
  | some bs => bs.foldl (serializeBranchStep commitsTable) (some [])

/-- The commits-table row inserted by `Garden::deserialize` for one decoded
`Commit` (garden.rs lines 540-563): TEXT fields plus the re-encoded content
BLOB. -/
def commitToRow (c : Commit) : CommitRow :=
  ⟨c.id, c.branch, natToStr c.timestamp, c.author, c.message, Blob.good c.content⟩

/-- One iteration of the branch-directory loop of `Garden::deserialize`
(garden.rs lines 489-565): read `branch.json` (a missing file is an
unwrapped read failure — `none`), insert the branches row with the stringified
timestamp, then insert one commits row per commit file in the directory. -/
def deserializeStep (acc : Option (List BranchRow × List CommitRow))
    (e : Str × SerBranchDir) : Option (List BranchRow × List CommitRow) :=
  match acc with
  | none => none
  | some (bs, cs) =>
    match e.2.branchJson with
    | none => none
    | some b =>
      some (bs ++ [⟨b.id, b.name, natToStr b.timestamp⟩],
            cs ++ e.2.commits.map fun fc => commitToRow fc.2)

/-- `Garden::deserialize` applied to an export tree: the branches and
commits rows it inserts into the metadata store, in insertion order. -/
def deserializeTree (t : SerTree) : Option (List BranchRow × List CommitRow) :=
  t.foldl deserializeStep (some ([], []))

/-! ### `Stage::add_glob` (stage.rs lines 52-92) -/

/-- One entry yielded by the `WalkDir::new(".")` traversal: the path
components below the walk root, and whether the entry is a directory. -/
structure WalkEntry where
  comps : List Str
  isDir : Bool

/-- The literal `"./"` prefix of every `WalkDir` path. -/
def dotSlash : Str := ['.', '/']

/-- Rust `str::join("/")` over path components. -/
def joinSlash (comps : List Str) : Str := List.intercalate ['/'] comps

/-- Rust `path.replace("./", "")`: remove every (left-to-right,
non-overlapping) occurrence of the two-character pattern `./`. -/
def stripDotSlash : Str → Str
  | [] => []
  | [c] => [c]
  | c₁ :: c₂ :: rest =>
    if c₁ = '.' ∧ c₂ = '/' then stripDotSlash rest
    else c₁ :: stripDotSlash (c₂ :: rest)

/-- Rust `path.split("/")` into components. -/
def splitSlash : Str → List Str := splitOnChar '/'

/-- Modelled semantics of the third-party `globset` crate for the two
literal patterns `Stage::add_glob` always pushes (`".git/**/*"` and
`".garden/**/*"`): `**` spans zero or more path components and `*` exactly
one, so the pattern matches any path whose first component is `dir` followed
by at least one more component. -/
def matchesMetaGlob (dir : Str) (path : Str) : Bool :=
  match splitSlash path with
  | c :: _ :: _ => c == dir
  | _ => false

/-- The built glob set matches when any caller-supplied glob (`extra`) or
either of the two always-pushed patterns matches
(`glob_match.matches(&path).len() != 0`). -/
def globMatches (extra : Str → Bool) (path : Str) : Bool :=
  extra path || matchesMetaGlob ".git".data path || matchesMetaGlob ".garden".data path

/-- The path string `add_glob` tests for one walk entry:
`p.path().to_str().unwrap().replace("./", "")`. -/
def walkPath (e : WalkEntry) : Str := stripDotSlash (dotSlash ++ joinSlash e.comps)

/-- The list of paths `Stage::add_glob` appends to the stage file for a
given traversal, in walk order: empty paths, directories, and glob matches
are skipped; everything else is pushed as `"\n{path}"` onto the output
string (modelled as the list of pushed paths). -/
def addGlobPaths (extra : Str → Bool) (entries : List WalkEntry) : List Str :=
  entries.foldl
    (fun out e =>
      let path := walkPath e
      if path = [] then out
      else if e.isDir then out
      else if globMatches extra path then out
      else out ++ [path])
    []

/-! ### Replay-length precondition for `PatchFile::apply` -/

/-- Line count evolution of the `PatchFile::apply` replay: an `Added` change
always grows the line list by one (insert or append), a `Deleted` change
shrinks it by one when its index is in range and panics (`none`)
otherwise. -/
def replayLen : Nat → List Change → Option Nat
  | n, [] => some n
  | n, c :: cs =>
    match c.2.1 with
    | ChangeMode.Added => replayLen (n + 1) cs
    | ChangeMode.Deleted => if c.1 < n then replayLen (n - 1) cs else none

/-! ## Support lemmas -/

lemma splitOnChar_ne_nil (sep : Char) (s : Str) : splitOnChar sep s ≠ [] := by
  cases s with
  | nil => simp [splitOnChar]
  | cons c rest =>
    simp only [splitOnChar]
    split
    · simp
    · split <;> simp

lemma splitOnChar_no_sep (sep : Char) (s : Str) (h : sep ∉ s) :
    splitOnChar sep s = [s] := by
  induction s with
  | nil => simp [splitOnChar]
  | cons c rest ih =>
    have hc : ¬ c = sep := fun he => h (he ▸ List.mem_cons_self c rest)
    have hr : sep ∉ rest := fun hm => h (List.mem_cons_of_mem c hm)
    simp only [splitOnChar, if_neg hc, ih hr]

lemma splitNl_no_nl (s : Str) (h : '\n' ∉ s) : splitNl s = [s] :=
  splitOnChar_no_sep '\n' s h

lemma joinNl_singleton (x : Str) : joinNl [x] = x := by
  simp [joinNl, List.intercalate]

lemma splitLines_eq_nil_iff (s : Str) : splitLines s = [] ↔ s = [] := by
  cases s with
  | nil => simp [splitLines]
  | cons c rest =>
    simp only [splitLines]
    constructor
    · intro h
      exfalso
      revert h
      split
      · simp
      · split <;> simp
    · intro h
      exact absurd h (List.cons_ne_nil c rest)

lemma splitLines_no_nl (s : Str) (h0 : s ≠ []) (h : '\n' ∉ s) :
    splitLines s = [s] := by
  induction s with
  | nil => exact absurd rfl h0
  | cons c rest ih =>
    have hc : ¬ c = '\n' := fun he => h (he ▸ List.mem_cons_self c rest)
    have hr : '\n' ∉ rest := fun hm => h (List.mem_cons_of_mem c hm)
    by_cases h1 : rest = []
    · subst h1
      simp [splitLines, if_neg hc]
    · simp only [splitLines, if_neg hc, ih h1 hr]

lemma append_inj_left {a : Str} {b c : Str} (h : a ++ b = a ++ c) : b = c :=
  List.append_cancel_left h

lemma append_ne_of_ne {a : Str} {b c : Str} (h : b ≠ c) : a ++ b ≠ a ++ c :=
  fun he => h (append_inj_left he)

lemma localfile_ne_objects (id : Str) :
    "/.garden/localfile".data ≠ "/.garden/objects/".data ++ id := by
  intro h
  have h9 := congrArg (fun l : Str => l[9]?) h
  simp only [List.getElem?_append] at h9
  rw [if_pos (by decide)] at h9
  exact absurd h9 (by decide)

lemma stagefile_ne_objects (id : Str) :
    "/.garden/stagefile".data ≠ "/.garden/objects/".data ++ id := by
  intro h
  have h9 := congrArg (fun l : Str => l[9]?) h
  simp only [List.getElem?_append] at h9
  rw [if_pos (by decide)] at h9
  exact absurd h9 (by decide)

/-! ## Claim C2 -/

/-- C2: the claim says `create_commit` appends the fresh commit id to the
Local (unsynced) file and leaves the Stage file unmodified.  On the code the
opposite happens: `Garden::new` wires `LocalStage` to the STAGE file path
(garden.rs line 213), so `self.local.add(id)` appends the id to
`.garden/stagefile`, modifying the stage, while `.garden/localfile` is never
written. -/
theorem c2_localstage_wired_to_stagefile (source id packBytes : Str) (fs : Str → Str) :
    gardenLocalPath source = gardenStagePath source ∧
    gardenLocalPath source ≠ gardenLocalFilePath source ∧
    createCommitFsEffect source id packBytes fs (gardenLocalFilePath source) =
      fs (gardenLocalFilePath source) ∧
    createCommitFsEffect source id packBytes fs (gardenStagePath source) =
      fs (gardenStagePath source) ++ '\n' :: id := by
  refine ⟨rfl, ?_, ?_, ?_⟩
  · exact append_ne_of_ne (by decide)
  · unfold createCommitFsEffect localStageAdd gardenLocalFilePath packObjectPath gardenLocalPath
    rw [List.append_assoc]
    rw [if_neg (append_ne_of_ne (localfile_ne_objects id))]
    simp only
    rw [if_neg (append_ne_of_ne (by decide))]
  · unfold createCommitFsEffect localStageAdd gardenStagePath packObjectPath gardenLocalPath
    rw [List.append_assoc]
    rw [if_neg (append_ne_of_ne (stagefile_ne_objects id))]
    simp

/-! ## Claim C4 -/

/-- C4 counterexample: on an empty store every lookup misses, and all three
lookups answer with the catch-all `LilyError::Other`, not
`LilyError::NotFound` as the claim states. -/
theorem c4_counterexample :
    get_branch [] ['x'] = some (Except.error LilyError.Other) ∧
    get_branch_by_name [] ['x'] = some (Except.error LilyError.Other) ∧
    get_commit [] ['x'] = some (Except.error LilyError.Other) ∧
    LilyError.Other ≠ LilyError.NotFound := by
  refine ⟨rfl, rfl, rfl, by decide⟩

/-- C4 (amended): for every id (or name) that matches no stored row, the
lookups `get_branch`, `get_branch_by_name` and `get_commit` return an error
— the catch-all `Other` kind (every `fetch_one` failure is mapped to it) —
not a default value and not `NotFound`. -/
theorem c4_missing_row_gives_other (branches : List BranchRow)
    (commits : List CommitRow) (x : Str)
    (h1 : ∀ r ∈ branches, r.id ≠ x)
    (h2 : ∀ r ∈ branches, r.name ≠ x)
    (h3 : ∀ r ∈ commits, r.id ≠ rustToLowercase x) :
    get_branch branches x = some (Except.error LilyError.Other) ∧
    get_branch_by_name branches x = some (Except.error LilyError.Other) ∧
    get_commit commits x = some (Except.error LilyError.Other) := by
  refine ⟨?_, ?_, ?_⟩
  · unfold get_branch
    rw [List.find?_eq_none.mpr (by intro r hr; simpa using h1 r hr)]
  · unfold get_branch_by_name
    rw [List.find?_eq_none.mpr (by intro r hr; simpa using h2 r hr)]
  · unfold get_commit
    rw [List.find?_eq_none.mpr (by intro r hr; simpa using h3 r hr)]

/-- C4 witness: the amended statement applied to the empty store. -/
theorem c4_missing_row_gives_other_witness :
    get_branch [] ['x'] = some (Except.error LilyError.Other) ∧
    get_branch_by_name [] ['x'] = some (Except.error LilyError.Other) ∧
    get_commit [] ['x'] = some (Except.error LilyError.Other) :=
  c4_missing_row_gives_other [] [] ['x'] (by simp) (by simp) (by simp)

/-! ## Claim C6 -/

/-- C6 counterexample: `diff(path, "", "")` does NOT return a Patch with an
empty files map — `Patch::from_file` unconditionally inserts an entry for
`path` before iterating the diff. -/
theorem c6_counterexample : (Patch.from_file ['p'] [] []).files ≠ [] := by
  simp [Patch.from_file]

/-- C6 (amended): for every path, `diff(path, "", "")` returns, without
error, a Patch whose files map holds exactly one entry — the given path
mapped to a no-op `PatchFile` with empty old content and zero changes. -/
theorem c6_empty_vs_empty (p : Str) :
    (Patch.from_file p [] []).files = [(p, ⟨[], []⟩)] := by
  simp [Patch.from_file, splitLines, diffChanges]

/-! ## Claim C1 -/

/-- C1 counterexample: the diff of `""` against `"x\ny"` stores the two
inserted line tokens WITH their trailing newlines, and `apply` splits and
re-joins on `"\n"`, so replaying the patch onto `""` yields `"x\n\ny\n"`,
not `"x\ny"` — the round trip fails. -/
theorem c1_counterexample :
    ∃ pf, mapLookup (Patch.from_file ['a'] [] ['x', '\n', 'y']).files ['a'] = some pf ∧
      pf.apply [] ≠ some ['x', '\n', 'y'] := by
  refine ⟨⟨[], [(0, ChangeMode.Added, ['x', '\n']), (1, ChangeMode.Added, ['y'])]⟩, ?_, by decide⟩
  simp [Patch.from_file, mapLookup, splitLines, diffChanges]

/-- C1 (amended): the diff/apply round trip holds for single-line texts —
whenever neither `old` nor `new` contains a newline and `new` is empty
whenever `old` is — but not for all text pairs: inserted tokens carry their
trailing newline into the line list, and consecutive deletions are replayed
at unadjusted indices, so multi-line round trips fail (see the
counterexample). -/
theorem c1_roundtrip_single_line (p old new : Str) (h₁ : '\n' ∉ old)
    (h₂ : '\n' ∉ new) (h₃ : old = [] → new = []) :
    ∃ pf, (Patch.from_file p old new).files = [(p, pf)] ∧ pf.apply old = some new := by
  refine ⟨_, rfl, ?_⟩
  by_cases ho : old = []
  · have hn := h₃ ho
    subst ho
    subst hn
    have hd : diffChanges (splitLines []) (splitLines []) 0 0 = [] := by
      simp [splitLines, diffChanges]
    simp [PatchFile.apply, hd, splitNl, splitOnChar, joinNl, List.intercalate]
  · have hso := splitLines_no_nl old ho h₁
    have hsnl := splitNl_no_nl old h₁
    by_cases hn : new = []
    · subst hn
      have hd : diffChanges (splitLines old) (splitLines []) 0 0 =
          [(0, ChangeMode.Deleted, old)] := by
        rw [hso]
        simp [splitLines, diffChanges]
      simp [PatchFile.apply, hd, hsnl, applyChange, joinNl, List.intercalate]
    · have hsn := splitLines_no_nl new hn h₂
      by_cases he : old = new
      · subst he
        have hd : diffChanges (splitLines old) (splitLines old) 0 0 = [] := by
          rw [hso]
          simp [diffChanges]
        simp [PatchFile.apply, hd, hsnl, joinNl_singleton]
      · have hd : diffChanges (splitLines old) (splitLines new) 0 0 =
            [(0, ChangeMode.Deleted, old), (0, ChangeMode.Added, new)] := by
          rw [hso, hsn]
          simp [diffChanges, lcsLen, he]
        simp [PatchFile.apply, hd, hsnl, applyChange, joinNl_singleton]

/-- C1 witness: the single-line round trip at `old = "a"`, `new = "b"`. -/
theorem c1_roundtrip_single_line_witness :
    ∃ pf, (Patch.from_file ['p'] ['a'] ['b']).files = [(['p'], pf)] ∧
      pf.apply ['a'] = some ['b'] :=
  c1_roundtrip_single_line ['p'] ['a'] ['b'] (by decide) (by decide) (by decide)

/-! ## Claim C3 -/

lemma mapInsert_forall {P : Str × PatchFile → Prop} (k : Str) (v : PatchFile) :
    ∀ (m : List (Str × PatchFile)), (∀ e ∈ m, P e) → P (k, v) →
    ∀ e ∈ mapInsert k v m, P e := by
  intro m
  induction m with
  | nil =>
    intro _ hv e he
    simp only [mapInsert, List.mem_singleton] at he
    exact he ▸ hv
  | cons hd tl ih =>
    intro hm hv e he
    obtain ⟨k₀, v₀⟩ := hd
    simp only [mapInsert] at he
    by_cases h1 : k = k₀
    · rw [if_pos h1] at he
      simp only [List.mem_cons] at he
      rcases he with he | he
      · exact he ▸ hv
      · exact hm _ (List.mem_cons_of_mem _ he)
    · rw [if_neg h1] at he
      by_cases h2 : strLt k k₀ = true
      · rw [if_pos h2] at he
        simp only [List.mem_cons] at he
        rcases he with he | he | he
        · exact he ▸ hv
        · exact he ▸ hm _ (List.mem_cons_self _ _)
        · exact hm _ (List.mem_cons_of_mem _ he)
      · rw [if_neg h2] at he
        simp only [List.mem_cons] at he
        rcases he with he | he
        · exact he ▸ hm _ (List.mem_cons_self _ _)
        · exact ih (fun x hx => hm x (List.mem_cons_of_mem _ hx)) hv _ he

lemma foldl_guarded_insert_forall {P : Str × PatchFile → Prop}
    (hgap : ∀ e : Str × PatchFile, e.2.changes.length ≠ 0 → P e) :
    ∀ (l : List (Str × PatchFile)) (p0 : Patch), (∀ e ∈ p0.files, P e) →
    ∀ e ∈ (l.foldl
        (fun p e => if e.2.changes.length = 0 then p
                    else { files := mapInsert e.1 e.2 p.files }) p0).files, P e := by
  intro l
  induction l with
  | nil => intro p0 h; exact h
  | cons hd tl ih =>
    intro p0 h
    rw [List.foldl_cons]
    by_cases hz : hd.2.changes.length = 0
    · rw [if_pos hz]
      exact ih p0 h
    · rw [if_neg hz]
      exact ih _ (mapInsert_forall hd.1 hd.2 p0.files h (hgap hd hz))

lemma foldl_insert_forall {P : Str × PatchFile → Prop} :
    ∀ (l : List (Str × PatchFile)), (∀ e ∈ l, P e) → ∀ (p0 : Patch),
    (∀ e ∈ p0.files, P e) →
    ∀ e ∈ (l.foldl
        (fun p en => { files := mapInsert en.1 en.2 p.files }) p0).files, P e := by
  intro l
  induction l with
  | nil => intro _ p0 h; exact h
  | cons hd tl ih =>
    intro hl p0 h
    rw [List.foldl_cons]
    exact ih (fun x hx => hl x (List.mem_cons_of_mem hd hx))
      _ (mapInsert_forall hd.1 hd.2 p0.files h (hl hd (List.mem_cons_self hd tl)))

lemma diffChanges_nil_right (toks : List Str) :
    ∀ i j, diffChanges toks [] i j =
      (List.enumFrom i toks).map fun e => (e.1, ChangeMode.Deleted, e.2) := by
  induction toks with
  | nil => intro i j; simp [diffChanges]
  | cons a as ih =>
    intro i j
    simp only [diffChanges]
    rw [ih (i + 1) 0]
    simp [List.enumFrom]

lemma deletion_patchfile_inv (path content : Str) :
    ∀ e ∈ (Patch.from_file path content []).files,
      e.2.changes = [] → e.2.old = [] := by
  intro e he hc
  simp only [Patch.from_file, List.mem_singleton] at he
  subst he
  simp only at hc ⊢
  rw [show splitLines ([] : Str) = [] from rfl, diffChanges_nil_right] at hc
  have ht : splitLines content = [] := by
    rcases hs : splitLines content with _ | ⟨t, ts⟩
    · rfl
    · rw [hs, List.enumFrom] at hc
      exact absurd hc (by simp)
  exact (splitLines_eq_nil_iff content).mp ht

lemma stagedStep_inv (lp : PackMap) (rf : Str → Option Str)
    (acc : Patch × List Str) (file : Str)
    (h : ∀ e ∈ acc.1.files, e.2.changes = [] → e.2.old = []) :
    ∀ e ∈ (stagedStep lp rf acc file).1.files, e.2.changes = [] → e.2.old = [] := by
  unfold stagedStep
  by_cases hf : file = []
  · rw [if_pos hf]
    exact h
  · rw [if_neg hf]
    exact foldl_guarded_insert_forall
      (fun e hz hc => absurd (by rw [hc]; rfl) hz) _ acc.1 h

lemma deletedStep_inv (ns : List Str) (patch : Patch) (e : Str × Str)
    (h : ∀ x ∈ patch.files, x.2.changes = [] → x.2.old = []) :
    ∀ x ∈ (deletedStep ns patch e).files, x.2.changes = [] → x.2.old = [] := by
  unfold deletedStep
  by_cases hc : ns.contains e.1
  · rw [if_pos hc]
    exact h
  · rw [if_neg hc]
    exact foldl_insert_forall _ (deletion_patchfile_inv e.1 e.2) patch h

/-- C3 counterexample: a previous pack holding an EMPTY file `a` that is
absent from the stage makes `create_commit` store a `PatchFile` for `a` with
zero changes — the deleted-files loop merges synthesized patches without the
empty-change check applied in the staged loop. -/
theorem c3_counterexample :
    ∃ e ∈ (createCommitPatch [] [(['a'], [])] (fun _ => none)).files,
      e.2.changes = [] := by
  refine ⟨(['a'], ⟨[], []⟩), ?_, rfl⟩
  simp [createCommitPatch, deletedStep, Patch.from_file, splitLines, diffChanges, mapInsert]

/-- C3 (amended): every `PatchFile` stored by `create_commit` either has a
non-empty change list or records the deletion of a previously-empty file —
equivalently, a stored `PatchFile` with zero changes always has empty old
content.  The staged loop drops zero-change files, but the deleted-files
loop merges its synthesized full-deletion `PatchFile`s unconditionally, and
the deletion diff has zero changes exactly when the old content is empty. -/
theorem c3_zero_changes_only_for_empty_old (files : List Str) (lp : PackMap)
    (rf : Str → Option Str) (e : Str × PatchFile)
    (he : e ∈ (createCommitPatch files lp rf).files)
    (hc : e.2.changes = []) : e.2.old = [] := by
  unfold createCommitPatch at he
  revert hc
  refine ?_
  have hfold : ∀ (fl : List Str) (init : Patch × List Str),
      (∀ x ∈ init.1.files, x.2.changes = [] → x.2.old = []) →
      ∀ x ∈ (fl.foldl (stagedStep lp rf) init).1.files,
        x.2.changes = [] → x.2.old = [] := by
    intro fl
    induction fl with
    | nil => intro init hbase; exact hbase
    | cons hd tl ih =>
      intro init hbase
      rw [List.foldl_cons]
      exact ih _ (stagedStep_inv lp rf init hd hbase)
  have hfold2 : ∀ (pl : PackMap) (ns : List Str) (p0 : Patch),
      (∀ x ∈ p0.files, x.2.changes = [] → x.2.old = []) →
      ∀ x ∈ (pl.foldl (deletedStep ns) p0).files,
        x.2.changes = [] → x.2.old = [] := by
    intro pl ns
    induction pl with
    | nil => intro p0 h; exact h
    | cons hd tl ih =>
      intro p0 h
      rw [List.foldl_cons]
      exact ih _ (deletedStep_inv ns p0 hd h)
  refine hfold2 lp _ _ (hfold files (⟨[]⟩, []) ?_) e he
  intro x hx
  exact absurd hx (by simp)

/-- C3 witness: the amended statement at the concrete counterexample
store. -/
theorem c3_zero_changes_witness : (PatchFile.mk [] []).old = [] :=
  c3_zero_changes_only_for_empty_old [] [(['a'], [])] (fun _ => none)
    (['a'], ⟨[], []⟩)
    (by simp [createCommitPatch, deletedStep, Patch.from_file, splitLines, diffChanges, mapInsert])
    rfl

/-! ## Claim C5 -/

lemma mapLookup_insert_self (k : Str) (v : PatchFile) :
    ∀ m, mapLookup (mapInsert k v m) k = some v := by
  intro m
  induction m with
  | nil => simp [mapInsert, mapLookup]
  | cons hd tl ih =>
    obtain ⟨k₀, v₀⟩ := hd
    simp only [mapInsert]
    by_cases h1 : k = k₀
    · rw [if_pos h1]
      simp [mapLookup]
    · rw [if_neg h1]
      by_cases h2 : strLt k k₀ = true
      · rw [if_pos h2]
        simp [mapLookup]
      · rw [if_neg h2]
        simp only [mapLookup, List.find?] at ih ⊢
        rw [show (decide (k₀ = k)) = false by simp [Ne.symm h1]]
        exact ih

lemma mapLookup_insert_other (k : Str) (v : PatchFile) (q : Str) (hq : k ≠ q) :
    ∀ m, mapLookup (mapInsert k v m) q = mapLookup m q := by
  intro m
  induction m with
  | nil => simp [mapInsert, mapLookup, List.find?, hq]
  | cons hd tl ih =>
    obtain ⟨k₀, v₀⟩ := hd
    simp only [mapInsert]
    by_cases h1 : k = k₀
    · rw [if_pos h1]
      subst h1
      simp only [mapLookup, List.find?]
      rw [show (decide (k = q)) = false by simp [hq]]
    · rw [if_neg h1]
      by_cases h2 : strLt k k₀ = true
      · rw [if_pos h2]
        simp only [mapLookup, List.find?]
        rw [show (decide (k = q)) = false by simp [hq]]
      · rw [if_neg h2]
        simp only [mapLookup, List.find?] at ih ⊢
        cases hd : decide (k₀ = q) <;> simp [hd, ih]

/-- The one-file patch merged by the deleted-files loop, written out. -/
lemma deletedStep_eq (ns : List Str) (patch : Patch) (e : Str × Str) :
    deletedStep ns patch e =
      if ns.contains e.1 then patch
      else Patch.mk (mapInsert e.1
        (PatchFile.mk e.2 (diffChanges (splitLines e.2) (splitLines []) 0 0))
        patch.files) := by
  unfold deletedStep Patch.from_file
  rfl

lemma deletedFold_preserve (p : Str) :
    ∀ (tl : PackMap) (ns : List Str) (p0 : Patch), (∀ e ∈ tl, e.1 ≠ p) →
      mapLookup (tl.foldl (deletedStep ns) p0).files p = mapLookup p0.files p := by
  intro tl
  induction tl with
  | nil => intro ns p0 _; rfl
  | cons hd tl ih =>
    intro ns p0 hne
    rw [List.foldl_cons]
    rw [ih ns _ fun e he => hne e (List.mem_cons_of_mem hd he)]
    rw [deletedStep_eq]
    by_cases hc : ns.contains hd.1
    · rw [if_pos hc]
    · rw [if_neg hc]
      exact mapLookup_insert_other hd.1 _ p (hne hd (List.mem_cons_self hd tl)) p0.files

lemma deletedFold_lookup (p content : Str) :
    ∀ (pl : PackMap) (ns : List Str) (p0 : Patch), (p, content) ∈ pl →
      (pl.map Prod.fst).Nodup → ns.contains p = false →
      mapLookup (pl.foldl (deletedStep ns) p0).files p =
        some ⟨content, diffChanges (splitLines content) (splitLines []) 0 0⟩ := by
  intro pl
  induction pl with
  | nil => intro ns p0 hmem; exact absurd hmem (by simp)
  | cons hd tl ih =>
    intro ns p0 hmem hnd hcont
    rw [List.foldl_cons]
    rw [List.map_cons, List.nodup_cons] at hnd
    by_cases hhd : hd.1 = p
    · have hde : hd = (p, content) := by
        rcases List.mem_cons.mp hmem with he | he
        · exact he.symm
        · exact absurd (hhd ▸ List.mem_map_of_mem Prod.fst he) hnd.1
      have hkeys : ∀ e ∈ tl, e.1 ≠ p := by
        intro e he hep
        exact hnd.1 (hhd ▸ hep ▸ List.mem_map_of_mem Prod.fst he)
      rw [deletedFold_preserve p tl ns _ hkeys, deletedStep_eq, hde, hcont]
      simp only [Bool.false_eq_true, if_false]
      exact mapLookup_insert_self p _ p0.files
    · have hmem2 : (p, content) ∈ tl := by
        rcases List.mem_cons.mp hmem with he | he
        · exact absurd (congrArg Prod.fst he.symm) hhd
        · exact he
      exact ih ns _ hmem2 hnd.2 hcont

lemma stagedFold_not_mem_names (lp : PackMap) (rf : Str → Option Str) (p : Str) :
    ∀ (fl : List Str) (init : Patch × List Str), p ∉ init.2 → p ∉ fl →
      p ∉ (fl.foldl (stagedStep lp rf) init).2 := by
  intro fl
  induction fl with
  | nil => intro init h _; exact h
  | cons hd tl ih =>
    intro init hinit hfl
    rw [List.foldl_cons]
    refine ih _ ?_ fun hm => hfl (List.mem_cons_of_mem hd hm)
    unfold stagedStep
    by_cases hf : hd = []
    · rw [if_pos hf]
      exact hinit
    · rw [if_neg hf]
      simp only [List.mem_append, List.mem_singleton]
      rintro (hm | hm)
      · exact hinit hm
      · exact hfl (hm ▸ List.mem_cons_self hd tl)

lemma single_token_splitNl (s : Str) :
    ∀ t, splitLines s = [t] →
      joinNl ((splitNl s).eraseIdx 0) = [] ∧ 0 < (splitNl s).length := by
  induction s with
  | nil => intro t h; exact absurd h (by simp [splitLines])
  | cons c rest ih =>
    intro t h
    by_cases hc : c = '\n'
    · subst hc
      simp only [splitLines, eq_self_iff_true, if_true, List.cons.injEq] at h
      have hr : rest = [] := (splitLines_eq_nil_iff rest).mp h.2
      subst hr
      exact ⟨rfl, by decide⟩
    · rcases hsr : splitLines rest with _ | ⟨l, ls⟩
      · have hr : rest = [] := (splitLines_eq_nil_iff rest).mp hsr
        subst hr
        refine ⟨?_, ?_⟩
        · show joinNl ((splitOnChar '\n' [c]).eraseIdx 0) = []
          simp [splitOnChar, if_neg hc, joinNl, List.intercalate]
        · show 0 < (splitOnChar '\n' [c]).length
          simp [splitOnChar, if_neg hc]
      · have hform : splitLines (c :: rest) = (c :: l) :: ls := by
          simp only [splitLines, if_neg hc, hsr]
        rw [hform] at h
        have hls : ls = [] := by
          rcases List.cons.injEq _ _ _ _ ▸ h with ⟨_, h2⟩
          exact h2
        obtain ⟨he1, _⟩ := ih l (by rw [hsr, hls])
        rcases hnl : splitNl rest with _ | ⟨l₁, ls₁⟩
        · exact absurd hnl (splitOnChar_ne_nil '\n' rest)
        · have hform2 : splitNl (c :: rest) = (c :: l₁) :: ls₁ := by
            show splitOnChar '\n' (c :: rest) = (c :: l₁) :: ls₁
            rw [splitOnChar, if_neg hc]
            rw [show splitOnChar '\n' rest = l₁ :: ls₁ from hnl]
          rw [hform2]
          refine ⟨?_, by simp⟩
          rw [hnl] at he1
          simpa using he1

lemma apply_full_deletion_le_one (content : Str)
    (h : (splitLines content).length ≤ 1) :
    PatchFile.apply ⟨content, diffChanges (splitLines content) (splitLines []) 0 0⟩
      content = some [] := by
  rcases hs : splitLines content with _ | ⟨t, ts⟩
  · have hc : content = [] := (splitLines_eq_nil_iff content).mp hs
    subst hc
    rw [show splitLines ([] : Str) = [] from rfl]
    have hd : diffChanges [] [] 0 0 = [] := by simp [diffChanges]
    rw [hd]
    decide
  · have hts : ts = [] := by
      rw [hs] at h
      simpa using h
    subst hts
    obtain ⟨h1, h2⟩ := single_token_splitNl content t hs
    have hd : diffChanges [t] (splitLines []) 0 0 = [(0, ChangeMode.Deleted, t)] := by
      simp [splitLines, diffChanges]
    rw [hd]
    unfold PatchFile.apply
    simp only [List.foldlM_cons, List.foldlM_nil, applyChange]
    rw [if_pos h2]
    simp only [Option.pure_def, Option.bind_eq_bind, Option.some_bind]
    rw [h1]

/-- C5 counterexample: a two-line file `a` (`"x\ny"`) present in the
previous pack and absent from the stage gets the expected full-deletion
`PatchFile`, but applying that `PatchFile` to the old content does NOT yield
the empty string — the second `Deleted` change is replayed at index 1 of a
one-element line list, so `apply` panics (`none`). -/
theorem c5_counterexample :
    ∃ pf, mapLookup (createCommitPatch [] [(['a'], ['x', '\n', 'y'])]
        (fun _ => none)).files ['a'] = some pf ∧
      pf.apply ['x', '\n', 'y'] = none := by
  refine ⟨⟨['x', '\n', 'y'],
    [(0, ChangeMode.Deleted, ['x', '\n']), (1, ChangeMode.Deleted, ['y'])]⟩, ?_, by decide⟩
  have h := deletedFold_lookup ['a'] ['x', '\n', 'y']
    [(['a'], ['x', '\n', 'y'])] [] ⟨[]⟩ (by simp) (by simp) (by simp)
  unfold createCommitPatch
  simp only [List.foldl_nil]
  rw [h]
  simp [splitLines, diffChanges, lcsLen]

/-- C5 (amended): if a path is present in the previous pack but absent from
the staged set, the stored Patch contains a `PatchFile` for it whose changes
consist only of `Deleted` changes covering every line token of the old
content; applying that `PatchFile` to the old content yields the empty
string when the old content has at most one line token — for two or more
lines the unadjusted sequential `Vec::remove` calls panic or leave lines
behind (see the counterexample). -/
theorem c5_deletion_capture (files : List Str) (lp : PackMap)
    (rf : Str → Option Str) (p content : Str) (hmem : (p, content) ∈ lp)
    (hnodup : (lp.map Prod.fst).Nodup) (hns : p ∉ files) :
    ∃ pf, mapLookup (createCommitPatch files lp rf).files p = some pf ∧
      pf.old = content ∧
      pf.changes = (List.enumFrom 0 (splitLines content)).map
        (fun t => (t.1, ChangeMode.Deleted, t.2)) ∧
      (∀ c ∈ pf.changes, c.2.1 = ChangeMode.Deleted) ∧
      ((splitLines content).length ≤ 1 → pf.apply content = some []) := by
  refine ⟨⟨content, diffChanges (splitLines content) (splitLines []) 0 0⟩,
    ?_, rfl, ?_, ?_, ?_⟩
  · unfold createCommitPatch
    have hnames : p ∉ (files.foldl (stagedStep lp rf) (⟨[]⟩, [])).2 :=
      stagedFold_not_mem_names lp rf p files (⟨[]⟩, []) (by simp) hns
    exact deletedFold_lookup p content lp _ _ hmem hnodup (by simpa using hnames)
  · rw [show splitLines ([] : Str) = [] from rfl, diffChanges_nil_right]
  · rw [show splitLines ([] : Str) = [] from rfl, diffChanges_nil_right]
    intro c hc
    simp only [List.mem_map] at hc
    obtain ⟨a, _, rfl⟩ := hc
    rfl
  · exact apply_full_deletion_le_one content

/-- C5 witness: deletion capture of a one-line file `b` absent from the
stage — there the applied result is the empty string. -/
theorem c5_deletion_capture_witness :
    ∃ pf, mapLookup (createCommitPatch [] [(['b'], ['z'])]
        (fun _ => none)).files ['b'] = some pf ∧
      pf.old = ['z'] ∧
      pf.changes = (List.enumFrom 0 (splitLines ['z'])).map
        (fun t => (t.1, ChangeMode.Deleted, t.2)) ∧
      (∀ c ∈ pf.changes, c.2.1 = ChangeMode.Deleted) ∧
      ((splitLines ['z']).length ≤ 1 → pf.apply ['z'] = some []) :=
  c5_deletion_capture [] [(['b'], ['z'])] (fun _ => none) ['b'] ['z']
    (by simp) (by simp) (by simp)

/-! ## Claim C9 -/

lemma charToLower_idem (c : Char) : charToLower (charToLower c) = charToLower c := by
  unfold charToLower
  by_cases h : 65 ≤ c.toNat ∧ c.toNat ≤ 90
  · rw [if_pos h]
    have hv : (c.toNat + 32).isValidChar := by
      unfold Nat.isValidChar
      omega
    have ht : (Char.ofNat (c.toNat + 32)).toNat = c.toNat + 32 := by
      rw [Char.ofNat, dif_pos hv]
      rfl
    rw [if_neg (by omega)]
  · rw [if_neg h, if_neg h]

lemma rustToLowercase_idem (s : Str) :
    rustToLowercase (rustToLowercase s) = rustToLowercase s := by
  unfold rustToLowercase
  rw [List.map_map]
  exact List.map_congr_left fun c _ => charToLower_idem c

/-- C9: `get_commit` lowercases its id argument before the store lookup, so
looking up `id` and looking up `id.to_lowercase()` give the same result for
every store and every id; `get_branch` binds its id verbatim, so branch
lookup is case-sensitive (a store holding a branch with id `A` answers the
lookup of `A` but misses the lookup of `a`). -/
theorem c9_commit_lookup_case_insensitive :
    (∀ (commits : List CommitRow) (id : Str),
      get_commit commits id = get_commit commits (rustToLowercase id)) ∧
    get_branch [⟨['A'], ['m'], ['0']⟩] ['a'] = some (Except.error LilyError.Other) ∧
    get_branch [⟨['A'], ['m'], ['0']⟩] ['A'] = some (Except.ok ⟨['A'], ['m'], 0⟩) := by
  refine ⟨?_, by decide, by decide⟩
  intro commits id
  unfold get_commit
  rw [rustToLowercase_idem]

/-! ## Claim C8 -/

lemma stripDotSlash_cons_ne (c : Char) (t : Str) (hc : c ≠ '.') :
    stripDotSlash (c :: t) = c :: stripDotSlash t := by
  cases t with
  | nil => rfl
  | cons c₂ rest =>
    simp only [stripDotSlash]
    rw [if_neg fun hh => hc hh.1]

lemma stripDotSlash_dot_cons (c₂ : Char) (t : Str) (h : c₂ ≠ '/') :
    stripDotSlash ('.' :: c₂ :: t) = '.' :: stripDotSlash (c₂ :: t) := by
  simp only [stripDotSlash]
  rw [if_neg fun hh => h hh.2]

lemma stripDotSlash_dotslash (t : Str) :
    stripDotSlash ('.' :: '/' :: t) = stripDotSlash t := by
  simp [stripDotSlash]

lemma stripDotSlash_garden (t : Str) :
    stripDotSlash ("./.garden/".data ++ t) = ".garden/".data ++ stripDotSlash t := by
  show stripDotSlash ('.' :: '/' :: '.' :: 'g' :: 'a' :: 'r' :: 'd' :: 'e' :: 'n' :: '/' :: t) =
    '.' :: 'g' :: 'a' :: 'r' :: 'd' :: 'e' :: 'n' :: '/' :: stripDotSlash t
  rw [stripDotSlash_dotslash, stripDotSlash_dot_cons 'g' _ (by decide),
    stripDotSlash_cons_ne 'g' _ (by decide), stripDotSlash_cons_ne 'a' _ (by decide),
    stripDotSlash_cons_ne 'r' _ (by decide), stripDotSlash_cons_ne 'd' _ (by decide),
    stripDotSlash_cons_ne 'e' _ (by decide), stripDotSlash_cons_ne 'n' _ (by decide),
    stripDotSlash_cons_ne '/' _ (by decide)]

lemma splitOnChar_append_sep (sep : Char) (a b : Str) (ha : sep ∉ a) :
    splitOnChar sep (a ++ sep :: b) = a :: splitOnChar sep b := by
  induction a with
  | nil =>
    show splitOnChar sep (sep :: b) = [] :: splitOnChar sep b
    simp [splitOnChar]
  | cons c as ih =>
    have hc : ¬ c = sep := fun he => ha (he ▸ List.mem_cons_self c as)
    have has : sep ∉ as := fun hm => ha (List.mem_cons_of_mem c hm)
    show splitOnChar sep (c :: (as ++ sep :: b)) = (c :: as) :: splitOnChar sep b
    simp only [splitOnChar, if_neg hc, ih has]

lemma matchesMetaGlob_garden_prefix (t : Str) :
    matchesMetaGlob ".garden".data (".garden/".data ++ t) = true := by
  unfold matchesMetaGlob splitSlash
  rw [show ".garden/".data ++ t = ".garden".data ++ '/' :: t from rfl]
  rw [splitOnChar_append_sep '/' _ _ (by decide)]
  rcases h : splitOnChar '/' t with _ | ⟨l, ls⟩
  · exact absurd h (splitOnChar_ne_nil '/' t)
  · simp

lemma joinSlash_cons_cons (x y : Str) (l : List Str) :
    joinSlash (x :: y :: l) = x ++ '/' :: joinSlash (y :: l) := by
  simp [joinSlash, List.intercalate, List.intersperse]

lemma addGlobPaths_fold_inv (extra : Str → Bool) :
    ∀ (entries : List WalkEntry) (acc : List Str),
      (∀ p ∈ acc, matchesMetaGlob ".garden".data p = false ∧
        matchesMetaGlob ".git".data p = false) →
      ∀ p ∈ entries.foldl
        (fun out e =>
          let path := walkPath e
          if path = [] then out
          else if e.isDir then out
          else if globMatches extra path then out
          else out ++ [path]) acc,
        matchesMetaGlob ".garden".data p = false ∧
        matchesMetaGlob ".git".data p = false := by
  intro entries
  induction entries with
  | nil => intro acc h; exact h
  | cons e tl ih =>
    intro acc h
    rw [List.foldl_cons]
    refine ih _ ?_
    by_cases h1 : walkPath e = []
    · simp only [h1, if_pos rfl]
      exact h
    · rw [if_neg h1]
      by_cases h2 : e.isDir
      · rw [if_pos h2]
        exact h
      · rw [if_neg h2]
        by_cases h3 : globMatches extra (walkPath e) = true
        · rw [if_pos h3]
          exact h
        · rw [if_neg h3]
          intro p hp
          rcases List.mem_append.mp hp with hp | hp
          · exact h p hp
          · rw [List.mem_singleton] at hp
            subst hp
            unfold globMatches at h3
            simp only [Bool.or_eq_true, not_or, Bool.not_eq_true] at h3
            exact ⟨h3.2, h3.1.2⟩

/-- C8: no caller-supplied ignore-glob choice can make `add_glob` stage a
path under the metadata directory `.garden` (or the host VCS directory
`.git`): every path it appends fails both always-pushed glob patterns
(first conjunct), and the walk path of any entry lying under `.garden`
matches the `.garden` pattern, hence is never appended (second
conjunct). -/
theorem c8_add_glob_excludes_metadata :
    (∀ (extra : Str → Bool) (entries : List WalkEntry) (p : Str),
      p ∈ addGlobPaths extra entries →
      matchesMetaGlob ".garden".data p = false ∧
      matchesMetaGlob ".git".data p = false) ∧
    (∀ (extra : Str → Bool) (entries : List WalkEntry) (cs : List Str) (d : Bool),
      cs ≠ [] →
      walkPath ⟨".garden".data :: cs, d⟩ ∉ addGlobPaths extra entries) := by
  have main : ∀ (extra : Str → Bool) (entries : List WalkEntry) (p : Str),
      p ∈ addGlobPaths extra entries →
      matchesMetaGlob ".garden".data p = false ∧
      matchesMetaGlob ".git".data p = false := by
    intro extra entries p hp
    exact addGlobPaths_fold_inv extra entries [] (by simp) p hp
  refine ⟨main, ?_⟩
  intro extra entries cs d hcs hmem
  have hglob : matchesMetaGlob ".garden".data (walkPath ⟨".garden".data :: cs, d⟩) = true := by
    rcases cs with _ | ⟨c₁, cs'⟩
    · exact absurd rfl hcs
    · unfold walkPath
      simp only
      rw [joinSlash_cons_cons]
      rw [show dotSlash ++ (".garden".data ++ '/' :: joinSlash (c₁ :: cs')) =
        "./.garden/".data ++ joinSlash (c₁ :: cs') from by simp [dotSlash]]
      rw [stripDotSlash_garden]
      exact matchesMetaGlob_garden_prefix _
  exact absurd hglob (by rw [(main extra entries _ hmem).1]; simp)

/-- C8 witness: a top-level file is appended (so the first conjunct is not
vacuous), and a file under `.garden` is not appended. -/
theorem c8_add_glob_excludes_metadata_witness :
    (matchesMetaGlob ".garden".data ['a'] = false ∧
     matchesMetaGlob ".git".data ['a'] = false) ∧
    walkPath ⟨[".garden".data, ['x']], false⟩ ∉
      addGlobPaths (fun _ => false) [⟨[['a']], false⟩] :=
  ⟨c8_add_glob_excludes_metadata.1 (fun _ => false) [⟨[['a']], false⟩] ['a']
      (by simp [addGlobPaths, walkPath, dotSlash, joinSlash, stripDotSlash,
        globMatches, matchesMetaGlob, splitSlash, splitOnChar, List.intercalate,
        List.intersperse]),
   c8_add_glob_excludes_metadata.2 (fun _ => false) [⟨[['a']], false⟩]
      [['x']] false (by simp)⟩

/-! ## Claim C7 -/

lemma digitChar_toNat (d : Nat) (h : d < 10) : (digitChar d).toNat = 48 + d := by
  unfold digitChar
  have hv : (48 + d).isValidChar := by
    unfold Nat.isValidChar
    omega
  rw [Char.ofNat, dif_pos hv]
  rfl

lemma isDigit_digitChar (d : Nat) (h : d < 10) : isDigit (digitChar d) = true := by
  unfold isDigit
  rw [digitChar_toNat d h]
  simp only [Bool.and_eq_true, decide_eq_true_eq]
  omega

lemma digitVal_digitChar (d : Nat) (h : d < 10) : digitVal (digitChar d) = d := by
  unfold digitVal
  rw [digitChar_toNat d h]
  omega

lemma natDigits_all (n : Nat) : (natDigits n).all isDigit = true := by
  induction n using Nat.strong_induction_on with
  | _ n ih =>
    rw [natDigits]
    by_cases h : n = 0
    · rw [dif_pos h]
      rfl
    · rw [dif_neg h]
      rw [List.all_append]
      rw [ih (n / 10) (Nat.div_lt_self (Nat.pos_of_ne_zero h) (by omega))]
      simp [isDigit_digitChar _ (Nat.mod_lt n (by omega))]

lemma natDigits_ne_nil (n : Nat) (h : n ≠ 0) : natDigits n ≠ [] := by
  rw [natDigits, dif_neg h]
  simp

lemma digitsVal_append (init : Nat) (a b : Str) :
    digitsVal init (a ++ b) = digitsVal (digitsVal init a) b := by
  unfold digitsVal
  rw [List.foldl_append]

lemma digitsVal_natDigits (n : Nat) :
    ∀ init, digitsVal init (natDigits n) =
      init * 10 ^ (natDigits n).length + n := by
  induction n using Nat.strong_induction_on with
  | _ n ih =>
    intro init
    rw [natDigits]
    by_cases h : n = 0
    · rw [dif_pos h]
      subst h
      simp [digitsVal]
    · rw [dif_neg h]
      rw [digitsVal_append]
      rw [ih (n / 10) (Nat.div_lt_self (Nat.pos_of_ne_zero h) (by omega)) init]
      unfold digitsVal
      simp only [List.foldl_cons, List.foldl_nil]
      rw [digitVal_digitChar _ (Nat.mod_lt n (by omega))]
      rw [List.length_append, List.length_singleton, pow_succ]
      have hmod := Nat.div_add_mod n 10
      calc (init * 10 ^ (natDigits (n / 10)).length + n / 10) * 10 + n % 10
          = init * (10 ^ (natDigits (n / 10)).length * 10) +
            (n / 10 * 10 + n % 10) := by ring
        _ = init * (10 ^ (natDigits (n / 10)).length * 10) + n := by omega

lemma strToNat?_natToStr (n : Nat) : strToNat? (natToStr n) = some n := by
  unfold natToStr
  by_cases h : n = 0
  · rw [if_pos h]
    subst h
    decide
  · rw [if_neg h]
    unfold strToNat?
    rw [if_pos ⟨natDigits_ne_nil n h, natDigits_all n⟩]
    rw [digitsVal_natDigits n 0]
    simp

lemma insertLe_perm {α : Type} (le : α → α → Bool) (x : α) :
    ∀ l, List.Perm (insertLe le x l) (x :: l) := by
  intro l
  induction l with
  | nil => exact List.Perm.refl _
  | cons y ys ih =>
    unfold insertLe
    by_cases h : le x y = true
    · rw [if_pos h]
    · rw [if_neg h]
      exact List.Perm.trans (List.Perm.cons y ih) (List.Perm.swap x y ys)

lemma insertionSort_perm {α : Type} (le : α → α → Bool) :
    ∀ l, List.Perm (insertionSort le l) l := by
  intro l
  induction l with
  | nil => exact List.Perm.refl _
  | cons x xs ih =>
    unfold insertionSort
    exact List.Perm.trans (insertLe_perm le x (insertionSort le xs))
      (List.Perm.cons x ih)

lemma rowToBranch_canon (r : BranchRow) (h : ∃ n, r.timestamp = natToStr n) :
    rowToBranch r = some (branchOfRow r) := by
  obtain ⟨n, hn⟩ := h
  unfold rowToBranch branchOfRow
  rw [hn, strToNat?_natToStr]
  rfl

lemma rowToCommit_canon (r : CommitRow) (ht : ∃ n, r.timestamp = natToStr n)
    (hc : ∃ p, r.content = Blob.good p) :
    rowToCommit r = some (commitOfRow r) := by
  obtain ⟨n, hn⟩ := ht
  obtain ⟨p, hp⟩ := hc
  unfold rowToCommit commitOfRow
  rw [hn, strToNat?_natToStr, hp]
  rfl

lemma commitToRow_commitOfRow (r : CommitRow) (ht : ∃ n, r.timestamp = natToStr n)
    (hc : ∃ p, r.content = Blob.good p) :
    commitToRow (commitOfRow r) = r := by
  obtain ⟨n, hn⟩ := ht
  obtain ⟨p, hp⟩ := hc
  unfold commitToRow commitOfRow
  rw [hn, hp, strToNat?_natToStr]
  simp only [Option.getD_some, decodeBlob]
  rw [← hn, ← hp]

lemma branchRow_roundtrip (r : BranchRow) (h : ∃ n, r.timestamp = natToStr n) :
    (⟨(branchOfRow r).id, (branchOfRow r).name,
      natToStr (branchOfRow r).timestamp⟩ : BranchRow) = r := by
  obtain ⟨n, hn⟩ := h
  unfold branchOfRow
  simp only
  rw [hn, strToNat?_natToStr]
  simp [← hn]

lemma mapM_eq_some {α β : Type} (f : α → Option β) (g : α → β) :
    ∀ l : List α, (∀ x ∈ l, f x = some (g x)) → l.mapM f = some (l.map g) := by
  intro l
  induction l with
  | nil => intro _; rfl
  | cons a l ih =>
    intro h
    simp only [List.mapM_cons, List.map_cons]
    rw [h a (List.mem_cons_self a l), ih fun x hx => h x (List.mem_cons_of_mem a hx)]
    rfl

lemma get_all_branches_canon (branches : List BranchRow)
    (h : ∀ r ∈ branches, ∃ n, r.timestamp = natToStr n) :
    get_all_branches branches = some ((sortByTsDescB branches).map branchOfRow) := by
  unfold get_all_branches
  exact mapM_eq_some rowToBranch branchOfRow _ fun r hr =>
    rowToBranch_canon r (h r (((insertionSort_perm _ branches).mem_iff).mp hr))

lemma get_all_commits_canon (ct : List CommitRow) (name : Str)
    (ht : ∀ r ∈ ct, ∃ n, r.timestamp = natToStr n)
    (hc : ∀ r ∈ ct, ∃ p, r.content = Blob.good p) :
    get_all_commits ct name =
      some ((sortByTsDescC (ct.filter fun r => r.branch == name)).map commitOfRow) := by
  unfold get_all_commits
  refine mapM_eq_some rowToCommit commitOfRow _ fun r hr => ?_
  have hr2 : r ∈ ct :=
    List.mem_of_mem_filter (((insertionSort_perm _ _).mem_iff).mp hr)
  exact rowToCommit_canon r (ht r hr2) (hc r hr2)

lemma commitFileName_inj {a b : Str} (h : commitFileName a = commitFileName b) :
    a = b :=
  List.append_cancel_right h

lemma treeGetDir_setDir_self (n : Str) (d : SerBranchDir) :
    ∀ t : SerTree, (treeGetDir t n).isSome →
      treeGetDir (treeSetDir t n d) n = some d := by
  intro t
  induction t with
  | nil => intro h; exact absurd h (by simp [treeGetDir])
  | cons e tl ih =>
    intro h
    simp only [treeSetDir, List.map_cons]
    by_cases he : e.1 == n
    · rw [if_pos he]
      simp [treeGetDir]
    · rw [if_neg he]
      simp only [treeGetDir, List.find?] at h ⊢
      rw [show (e.1 == n) = false by simpa using he] at h ⊢
      exact ih h

lemma treeGetDir_setDir_other (n : Str) (d : SerBranchDir) (n₂ : Str)
    (hne : n₂ ≠ n) :
    ∀ t : SerTree, treeGetDir (treeSetDir t n d) n₂ = treeGetDir t n₂ := by
  intro t
  induction t with
  | nil => rfl
  | cons e tl ih =>
    simp only [treeSetDir, List.map_cons]
    by_cases he : e.1 == n
    · rw [if_pos he]
      have he2 : e.1 = n := by simpa using he
      simp only [treeGetDir, List.find?]
      rw [show (n == n₂) = false by simpa using (Ne.symm hne)]
      rw [show (e.1 == n₂) = false by simp [he2]; exact Ne.symm hne]
      exact ih
    · rw [if_neg he]
      simp only [treeGetDir, List.find?]
      cases hq : e.1 == n₂
      · exact ih
      · rfl

lemma treeGetDir_mkdir_other (t : SerTree) (n n₂ : Str) (hne : n₂ ≠ n) :
    treeGetDir (treeMkdir t n) n₂ = treeGetDir t n₂ := by
  unfold treeMkdir
  cases hg : treeGetDir t n
  · have hb : (n == n₂) = false := by
      simpa using Ne.symm hne
    simp only [treeGetDir] at hg ⊢
    rw [List.find?_append]
    rw [show List.find? (fun e => e.1 == n₂) [((n, ⟨none, []⟩) : Str × SerBranchDir)] =
      none by simp [List.find?, hb]]
    cases List.find? (fun e => e.1 == n₂) t <;> rfl
  · rfl

lemma treeGetDir_mkdir_fresh (t : SerTree) (n : Str)
    (h : treeGetDir t n = none) :
    treeGetDir (treeMkdir t n) n = some ⟨none, []⟩ := by
  unfold treeMkdir
  rw [h]
  simp only [treeGetDir] at h ⊢
  rw [List.find?_append]
  rw [show List.find? (fun e => e.1 == n) t = none by
    cases hf : List.find? (fun e => e.1 == n) t
    · rfl
    · rw [hf] at h; exact absurd h (by simp)]
  simp [List.find?]

lemma treeGetDir_mem (t : SerTree) (n : Str) (d : SerBranchDir)
    (h : treeGetDir t n = some d) : (n, d) ∈ t := by
  unfold treeGetDir at h
  cases hf : List.find? (fun e => e.1 == n) t with
  | none => rw [hf] at h; exact absurd h (by simp)
  | some e =>
    rw [hf] at h
    have he : e ∈ t := List.mem_of_find?_eq_some hf
    have hp := List.find?_some hf
    have h1 : e.1 = n := by simpa using hp
    have h2 : e.2 = d := by simpa using h
    have : e = (n, d) := Prod.ext h1 h2
    exact this ▸ he

lemma treeSetDir_mem (t : SerTree) (n : Str) (d : SerBranchDir) (e : Str × SerBranchDir)
    (h : e ∈ treeSetDir t n d) : e = (n, d) ∨ (e ∈ t ∧ e.1 ≠ n) := by
  unfold treeSetDir at h
  obtain ⟨x, hx, hmap⟩ := List.mem_map.mp h
  by_cases hc : x.1 == n
  · rw [if_pos hc] at hmap
    exact Or.inl hmap.symm
  · rw [if_neg hc] at hmap
    refine Or.inr ⟨hmap ▸ hx, ?_⟩
    rw [← hmap]
    simpa using hc

lemma treeMkdir_mem (t : SerTree) (n : Str) (e : Str × SerBranchDir)
    (h : e ∈ treeMkdir t n) : e ∈ t ∨ e = (n, ⟨none, []⟩) := by
  unfold treeMkdir at h
  cases hg : treeGetDir t n
  · rw [hg] at h
    rcases List.mem_append.mp h with h | h
    · exact Or.inl h
    · exact Or.inr (List.mem_singleton.mp h)
  · rw [hg] at h
    exact Or.inl h

lemma dirWriteCommit_mem_self (d : SerBranchDir) (f : Str) (c : Commit) :
    (f, c) ∈ (dirWriteCommit d f c).commits := by
  unfold dirWriteCommit
  by_cases hf : (d.commits.find? fun e => e.1 == f).isSome
  · rw [if_pos hf]
    simp only
    rcases ho : d.commits.find? fun e => e.1 == f with _ | e
    · rw [ho] at hf; exact absurd hf (by simp)
    · have he : e ∈ d.commits := List.mem_of_find?_eq_some ho
      have hp := List.find?_some ho
      have hp2 : (e.1 == f) = true := hp
      refine List.mem_map.mpr ⟨e, he, ?_⟩
      rw [if_pos hp2]
  · rw [if_neg hf]
    simp

lemma dirWriteCommit_mem_other (d : SerBranchDir) (f : Str) (c : Commit)
    (f' : Str) (c' : Commit) (h : (f', c') ∈ d.commits) (hne : f' ≠ f) :
    (f', c') ∈ (dirWriteCommit d f c).commits := by
  unfold dirWriteCommit
  by_cases hf : (d.commits.find? fun e => e.1 == f).isSome
  · rw [if_pos hf]
    simp only
    refine List.mem_map.mpr ⟨(f', c'), h, ?_⟩
    rw [if_neg (by simpa using hne)]
  · rw [if_neg hf]
    simp [h]

lemma dirWriteCommit_branchJson (d : SerBranchDir) (f : Str) (c : Commit) :
    (dirWriteCommit d f c).branchJson = d.branchJson := by
  unfold dirWriteCommit
  split <;> rfl

lemma dirWrite_fold_preserve (f : Str) (c : Commit) :
    ∀ (cs : List Commit) (d : SerBranchDir), (f, c) ∈ d.commits →
      (∀ x ∈ cs, commitFileName x.id ≠ f) →
      (f, c) ∈ (cs.foldl
        (fun d c => dirWriteCommit d (commitFileName c.id) c) d).commits := by
  intro cs
  induction cs with
  | nil => intro d h _; exact h
  | cons hd tl ih =>
    intro d h hne
    rw [List.foldl_cons]
    exact ih _ (dirWriteCommit_mem_other d _ hd (f) c h
        fun he => hne hd (List.mem_cons_self hd tl) he.symm)
      fun x hx => hne x (List.mem_cons_of_mem hd hx)

lemma dirWrite_fold_branchJson :
    ∀ (cs : List Commit) (d : SerBranchDir),
      (cs.foldl (fun d c => dirWriteCommit d (commitFileName c.id) c) d).branchJson =
        d.branchJson := by
  intro cs
  induction cs with
  | nil => intro d; rfl
  | cons hd tl ih =>
    intro d
    rw [List.foldl_cons, ih, dirWriteCommit_branchJson]

lemma dirWrite_fold_mem :
    ∀ (cs : List Commit) (d : SerBranchDir) (c : Commit), c ∈ cs →
      ((cs.map fun x => commitFileName x.id).Nodup) →
      (commitFileName c.id, c) ∈ (cs.foldl
        (fun d c => dirWriteCommit d (commitFileName c.id) c) d).commits := by
  intro cs
  induction cs with
  | nil => intro d c h; exact absurd h (by simp)
  | cons hd tl ih =>
    intro d c hc hnd
    rw [List.map_cons, List.nodup_cons] at hnd
    rw [List.foldl_cons]
    rcases List.mem_cons.mp hc with hc | hc
    · subst hc
      refine dirWrite_fold_preserve _ _ tl _ (dirWriteCommit_mem_self d _ c) ?_
      intro x hx he
      exact hnd.1 (he ▸ List.mem_map_of_mem (fun y => commitFileName y.id) hx)
    · exact ih _ c hc hnd.2

lemma serializeBranchStep_some (ct : List CommitRow) (t : SerTree) (b : Branch) :
    serializeBranchStep ct (some t) b =
      (match get_all_commits ct b.name with
       | none => none
       | some cs => some (treeSetDir (treeMkdir t b.name) b.name
          { cs.foldl (fun d c => dirWriteCommit d (commitFileName c.id) c)
              ((treeGetDir (treeMkdir t b.name) b.name).getD ⟨none, []⟩) with
            branchJson := some b })) := rfl

lemma serialize_fold (ct : List CommitRow)
    (hcts : ∀ r ∈ ct, ∃ n, r.timestamp = natToStr n)
    (hcct : ∀ r ∈ ct, ∃ p, r.content = Blob.good p)
    (hcid : (ct.map (·.id)).Nodup) :
    ∀ (bs : List Branch) (done : List Branch) (t : SerTree),
      ((done ++ bs).map (·.name)).Nodup →
      (∀ e ∈ t, e.2.branchJson.isSome) →
      (∀ e ∈ t, e.1 ∈ done.map (·.name)) →
      (∀ b ∈ done, ∃ d, treeGetDir t b.name = some d ∧ d.branchJson = some b ∧
        ∀ r ∈ ct, r.branch = b.name →
          (commitFileName r.id, commitOfRow r) ∈ d.commits) →
      ∃ t2, bs.foldl (serializeBranchStep ct) (some t) = some t2 ∧
        (∀ e ∈ t2, e.2.branchJson.isSome) ∧
        (∀ e ∈ t2, e.1 ∈ (done ++ bs).map (·.name)) ∧
        (∀ b ∈ done ++ bs, ∃ d, treeGetDir t2 b.name = some d ∧
          d.branchJson = some b ∧
          ∀ r ∈ ct, r.branch = b.name →
            (commitFileName r.id, commitOfRow r) ∈ d.commits) := by
  intro bs
  induction bs with
  | nil =>
    intro done t hnd hgood hkeys hdone
    refine ⟨t, rfl, hgood, ?_, ?_⟩
    · rw [List.append_nil]
      exact hkeys
    · rw [List.append_nil]
      exact hdone
  | cons b bs ih =>
    intro done t hnd hgood hkeys hdone
    have hnd2 : (done.map (·.name) ++ (·.name) b :: bs.map (·.name)).Nodup := by
      rw [← List.map_cons, ← List.map_append]
      exact hnd
    have hmid := List.nodup_middle.mp hnd2
    rw [List.nodup_cons, List.mem_append] at hmid
    have hbdone : b.name ∉ done.map (·.name) := fun hm => hmid.1 (Or.inl hm)
    have hbbs : b.name ∉ bs.map (·.name) := fun hm => hmid.1 (Or.inr hm)
    have hnone : treeGetDir t b.name = none := by
      cases hg : treeGetDir t b.name with
      | none => rfl
      | some d => exact absurd (hkeys _ (treeGetDir_mem t b.name d hg)) hbdone
    have hfresh := treeGetDir_mkdir_fresh t b.name hnone
    -- the commits written for this branch
    have hc := get_all_commits_canon ct b.name hcts hcct
    set l := sortByTsDescC (ct.filter fun r => r.branch == b.name) with hl
    set cs := l.map commitOfRow with hcs
    have hfn : (cs.map fun c => commitFileName c.id).Nodup := by
      have h1 : (cs.map fun c => commitFileName c.id) =
          l.map fun r => commitFileName r.id := by
        rw [hcs, List.map_map]
        rfl
      have h2 : ((ct.filter fun r => r.branch == b.name).map
          fun r => commitFileName r.id).Nodup := by
        refine List.Nodup.sublist
          (List.Sublist.map _ (List.filter_sublist ct)) ?_
        have h3 := List.Nodup.map (fun a c hac => commitFileName_inj hac) hcid
        rwa [List.map_map] at h3
      rw [h1]
      exact ((List.Perm.map _ (insertionSort_perm _ _)).nodup_iff).mpr h2
    have hmemcs : ∀ r ∈ ct, r.branch = b.name → commitOfRow r ∈ cs := by
      intro r hr hbr
      refine List.mem_map_of_mem commitOfRow ?_
      refine ((insertionSort_perm _ _).mem_iff).mpr ?_
      exact List.mem_filter.mpr ⟨hr, by simp [hbr]⟩
    -- the directory written for this branch
    set d2 : SerBranchDir :=
      { cs.foldl (fun d c => dirWriteCommit d (commitFileName c.id) c)
          (⟨none, []⟩ : SerBranchDir) with branchJson := some b } with hd2
    have hstep : serializeBranchStep ct (some t) b =
        some (treeSetDir (treeMkdir t b.name) b.name d2) := by
      rw [serializeBranchStep_some, hc, hfresh]
      rfl
    have hself : treeGetDir (treeSetDir (treeMkdir t b.name) b.name d2) b.name =
        some d2 :=
      treeGetDir_setDir_self b.name d2 _ (by rw [hfresh]; rfl)
    have hd2commits : ∀ r ∈ ct, r.branch = b.name →
        (commitFileName r.id, commitOfRow r) ∈ d2.commits := by
      intro r hr hbr
      exact dirWrite_fold_mem cs _ (commitOfRow r) (hmemcs r hr hbr) hfn
    -- invariants for the recursive call
    rw [List.foldl_cons, hstep]
    have hgood2 : ∀ e ∈ treeSetDir (treeMkdir t b.name) b.name d2,
        e.2.branchJson.isSome := by
      intro e he
      rcases treeSetDir_mem _ _ _ _ he with he | ⟨he, hne⟩
      · rw [he]
        rfl
      · rcases treeMkdir_mem _ _ _ he with he2 | he2
        · exact hgood e he2
        · exact absurd (congrArg Prod.fst he2) hne
    have hkeys2 : ∀ e ∈ treeSetDir (treeMkdir t b.name) b.name d2,
        e.1 ∈ (done ++ [b]).map (·.name) := by
      intro e he
      rcases treeSetDir_mem _ _ _ _ he with he | ⟨he, hne⟩
      · rw [he]
        simp
      · rcases treeMkdir_mem _ _ _ he with he2 | he2
        · simp only [List.map_append, List.mem_append]
          exact Or.inl (hkeys e he2)
        · exact absurd (congrArg Prod.fst he2) hne
    have hdone2 : ∀ b₂ ∈ done ++ [b],
        ∃ d, treeGetDir (treeSetDir (treeMkdir t b.name) b.name d2) b₂.name = some d ∧
          d.branchJson = some b₂ ∧
          ∀ r ∈ ct, r.branch = b₂.name →
            (commitFileName r.id, commitOfRow r) ∈ d.commits := by
      intro b₂ hb₂
      rcases List.mem_append.mp hb₂ with hb₂ | hb₂
      · have hne : b₂.name ≠ b.name := by
          intro he
          exact hbdone (he ▸ List.mem_map_of_mem (·.name) hb₂)
        obtain ⟨d, hd, hj, hcm⟩ := hdone b₂ hb₂
        refine ⟨d, ?_, hj, hcm⟩
        rw [treeGetDir_setDir_other b.name d2 b₂.name hne,
          treeGetDir_mkdir_other t b.name b₂.name hne, hd]
      · rw [List.mem_singleton] at hb₂
        subst hb₂
        exact ⟨d2, hself, rfl, hd2commits⟩
    have hnd3 : (((done ++ [b]) ++ bs).map (·.name)).Nodup := by
      rw [show (done ++ [b]) ++ bs = done ++ b :: bs by simp]
      exact hnd
    obtain ⟨t2, ht2, hg2, hk2, hp2⟩ := ih (done ++ [b]) _ hnd3 hgood2 hkeys2 hdone2
    refine ⟨t2, ht2, hg2, ?_, ?_⟩
    · intro e he
      have := hk2 e he
      rwa [show (done ++ [b]) ++ bs = done ++ b :: bs by simp] at this
    · intro b₂ hb₂
      refine hp2 b₂ ?_
      rw [show (done ++ [b]) ++ bs = done ++ b :: bs by simp]
      exact hb₂

lemma deserializeTree_mem :
    ∀ (t : SerTree) (init : List BranchRow × List CommitRow),
      (∀ e ∈ t, e.2.branchJson.isSome) →
      ∃ rows, t.foldl deserializeStep (some init) = some rows ∧
        (∀ x ∈ init.1, x ∈ rows.1) ∧ (∀ x ∈ init.2, x ∈ rows.2) ∧
        (∀ e ∈ t, ∀ b, e.2.branchJson = some b →
          (⟨b.id, b.name, natToStr b.timestamp⟩ : BranchRow) ∈ rows.1) ∧
        (∀ e ∈ t, ∀ fc ∈ e.2.commits, commitToRow fc.2 ∈ rows.2) := by
  intro t
  induction t with
  | nil =>
    intro init _
    exact ⟨init, rfl, fun x h => h, fun x h => h,
      fun e he => absurd he (List.not_mem_nil e),
      fun e he => absurd he (List.not_mem_nil e)⟩
  | cons e tl ih =>
    intro init hgood
    obtain ⟨bi, ci⟩ := init
    obtain ⟨b, hb⟩ : ∃ b, e.2.branchJson = some b := by
      cases hx : e.2.branchJson with
      | none =>
        have := hgood e (List.mem_cons_self e tl)
        rw [hx] at this
        exact absurd this (by simp)
      | some b => exact ⟨b, rfl⟩
    have hstep : deserializeStep (some (bi, ci)) e =
        some (bi ++ [⟨b.id, b.name, natToStr b.timestamp⟩],
          ci ++ e.2.commits.map fun fc => commitToRow fc.2) := by
      unfold deserializeStep
      rw [hb]
    rw [List.foldl_cons, hstep]
    obtain ⟨rows, hrows, hi1, hi2, hd1, hd2⟩ :=
      ih _ fun x hx => hgood x (List.mem_cons_of_mem e hx)
    refine ⟨rows, hrows, ?_, ?_, ?_, ?_⟩
    · intro x hx
      exact hi1 x (List.mem_append.mpr (Or.inl hx))
    · intro x hx
      exact hi2 x (List.mem_append.mpr (Or.inl hx))
    · intro e₂ he₂ b₂ hb₂
      rcases List.mem_cons.mp he₂ with he₂ | he₂
      · have hbb : b₂ = b := by
          rw [he₂] at hb₂
          rw [hb₂] at hb
          exact Option.some_inj.mp hb
        subst hbb
        exact hi1 _ (List.mem_append.mpr (Or.inr (List.mem_singleton.mpr rfl)))
      · exact hd1 e₂ he₂ b₂ hb₂
    · intro e₂ he₂ fc hfc
      rcases List.mem_cons.mp he₂ with he₂ | he₂
      · subst he₂
        exact hi2 _ (List.mem_append.mpr
          (Or.inr (List.mem_map_of_mem (fun fc => commitToRow fc.2) hfc)))
      · exact hd2 e₂ he₂ fc hfc

/-- C7 counterexample: two branches may share a name (permitted by design),
but `serialize` keys the export tree by branch NAME, so
`branches/x/branch.json` is overwritten and `deserialize` reproduces only
one of the two branch rows — the row with id `2` is lost. -/
theorem c7_counterexample :
    ∃ tree rows,
      serialize [⟨['1'], ['x'], ['1']⟩, ⟨['2'], ['x'], ['2']⟩] [] = some tree ∧
      deserializeTree tree = some rows ∧
      (⟨['2'], ['x'], ['2']⟩ : BranchRow) ∈
        [(⟨['1'], ['x'], ['1']⟩ : BranchRow), ⟨['2'], ['x'], ['2']⟩] ∧
      ∀ r ∈ rows.1, r.id ≠ ['2'] := by
  refine ⟨[(['x'], ⟨some ⟨['1'], ['x'], 1⟩, []⟩)],
    ([⟨['1'], ['x'], natToStr 1⟩], []), ?_, ?_, by decide, ?_⟩
  · decide
  · simp [deserializeTree, deserializeStep]
  · intro r hr
    rw [List.mem_singleton] at hr
    subst hr
    decide

/-- C7 (amended): `deserialize(serialize())` reproduces every branch row and
every commit row — same ids, names/branches, timestamps, authors, messages
and Patch content — provided branch names are pairwise distinct, commit ids
are pairwise distinct, every commit names an existing branch, and the rows
are engine-written (numeric timestamp strings, decodable content BLOBs).
Without distinct names the round trip loses rows (see the counterexample),
because the export tree is keyed by branch name. -/
theorem c7_export_import_roundtrip (branches : List BranchRow)
    (ct : List CommitRow)
    (hbn : (branches.map (·.name)).Nodup)
    (hcid : (ct.map (·.id)).Nodup)
    (hbts : ∀ r ∈ branches, ∃ n, r.timestamp = natToStr n)
    (hcts : ∀ r ∈ ct, ∃ n, r.timestamp = natToStr n)
    (hcct : ∀ r ∈ ct, ∃ p, r.content = Blob.good p)
    (hcb : ∀ r ∈ ct, ∃ br ∈ branches, br.name = r.branch) :
    ∃ tree rows, serialize branches ct = some tree ∧
      deserializeTree tree = some rows ∧
      (∀ r ∈ branches, r ∈ rows.1) ∧ (∀ r ∈ ct, r ∈ rows.2) := by
  have hb := get_all_branches_canon branches hbts
  set bs := (sortByTsDescB branches).map branchOfRow with hbs
  have hbsmem : ∀ r ∈ branches, branchOfRow r ∈ bs := by
    intro r hr
    exact List.mem_map_of_mem branchOfRow
      (((insertionSort_perm _ _).mem_iff).mpr hr)
  have hbsnd : (bs.map (·.name)).Nodup := by
    have h1 : bs.map (·.name) = (sortByTsDescB branches).map (·.name) := by
      rw [hbs, List.map_map]
      rfl
    rw [h1]
    exact ((List.Perm.map _ (insertionSort_perm _ _)).nodup_iff).mpr hbn
  obtain ⟨t2, ht2, hg2, _, hp2⟩ :=
    serialize_fold ct hcts hcct hcid bs [] [] (by simpa using hbsnd)
      (by simp) (by simp) (by simp)
  have hser : serialize branches ct = some t2 := by
    unfold serialize
    rw [hb]
    exact ht2
  obtain ⟨rows, hrows, _, _, hd1, hd2⟩ := deserializeTree_mem t2 ([], []) hg2
  refine ⟨t2, rows, hser, hrows, ?_, ?_⟩
  · intro r hr
    obtain ⟨d, hd, hj, _⟩ := hp2 (branchOfRow r) (by simpa using hbsmem r hr)
    have hmem := treeGetDir_mem t2 _ d hd
    have := hd1 _ hmem (branchOfRow r) hj
    rwa [branchRow_roundtrip r (hbts r hr)] at this
  · intro r hr
    obtain ⟨br, hbr, hbrname⟩ := hcb r hr
    obtain ⟨d, hd, _, hcm⟩ := hp2 (branchOfRow br) (by simpa using hbsmem br hbr)
    have hmem := treeGetDir_mem t2 _ d hd
    have hfc : (commitFileName r.id, commitOfRow r) ∈ d.commits :=
      hcm r hr (by show r.branch = (branchOfRow br).name; rw [show (branchOfRow br).name = br.name from rfl, hbrname])
    have := hd2 _ hmem _ hfc
    rwa [commitToRow_commitOfRow r (hcts r hr) (hcct r hr)] at this

/-- C7 witness: the round trip at a one-branch, one-commit store. -/
theorem c7_export_import_roundtrip_witness :
    ∃ tree rows,
      serialize [⟨['1'], ['x'], natToStr 5⟩]
        [⟨['9'], ['x'], natToStr 7, ['u'], ['m'], Blob.good ⟨[]⟩⟩] = some tree ∧
      deserializeTree tree = some rows ∧
      (∀ r ∈ [(⟨['1'], ['x'], natToStr 5⟩ : BranchRow)], r ∈ rows.1) ∧
      (∀ r ∈ [(⟨['9'], ['x'], natToStr 7, ['u'], ['m'], Blob.good ⟨[]⟩⟩ : CommitRow)],
        r ∈ rows.2) :=
  c7_export_import_roundtrip _ _ (by decide) (by decide)
    (by intro r hr; rw [List.mem_singleton] at hr; subst hr; exact ⟨5, rfl⟩)
    (by intro r hr; rw [List.mem_singleton] at hr; subst hr; exact ⟨7, rfl⟩)
    (by intro r hr; rw [List.mem_singleton] at hr; subst hr; exact ⟨⟨[]⟩, rfl⟩)
    (by intro r hr; rw [List.mem_singleton] at hr; subst hr;
        exact ⟨⟨['1'], ['x'], natToStr 5⟩, List.mem_singleton.mpr rfl, rfl⟩)

/-! ## Claim C10 -/

lemma replay_foldlM_isSome :
    ∀ (cs : List Change) (lines : List Str),
      (replayLen lines.length cs).isSome →
      ∃ out, List.foldlM applyChange lines cs = some out := by
  intro cs
  induction cs with
  | nil => exact fun lines _ => ⟨lines, rfl⟩
  | cons c cs ih =>
    intro lines h
    match hm : c.2.1 with
    | ChangeMode.Added =>
      by_cases hgt : c.1 > lines.length
      · have hs : applyChange lines c = some (lines ++ [c.2.2]) := by
          unfold applyChange
          rw [hm, if_pos hgt]
        have hlen : (lines ++ [c.2.2]).length = lines.length + 1 := by simp
        rw [replayLen, hm] at h
        obtain ⟨out, ho⟩ := ih (lines ++ [c.2.2]) (by rw [hlen]; exact h)
        exact ⟨out, by rw [List.foldlM_cons, hs]; exact ho⟩
      · have hs : applyChange lines c = some (lines.insertIdx c.1 c.2.2) := by
          unfold applyChange
          rw [hm, if_neg hgt]
        have hlen : (lines.insertIdx c.1 c.2.2).length = lines.length + 1 := by
          rw [List.length_insertIdx _ _ (by omega)]
        rw [replayLen, hm] at h
        obtain ⟨out, ho⟩ := ih _ (by rw [hlen]; exact h)
        exact ⟨out, by rw [List.foldlM_cons, hs]; exact ho⟩
    | ChangeMode.Deleted =>
      rw [replayLen, hm] at h
      by_cases hlt : c.1 < lines.length
      · rw [if_pos hlt] at h
        have hs : applyChange lines c = some (lines.eraseIdx c.1) := by
          unfold applyChange
          rw [hm, if_pos hlt]
        have hlen : (lines.eraseIdx c.1).length = lines.length - 1 := by
          rw [List.length_eraseIdx]
          simp [hlt]
        obtain ⟨out, ho⟩ := ih _ (by rw [hlen]; exact h)
        exact ⟨out, by rw [List.foldlM_cons, hs]; exact ho⟩
      · rw [if_neg hlt] at h
        exact absurd h (by simp)

lemma replayLen_all_added :
    ∀ (cs : List Change) (n : Nat),
      (∀ c ∈ cs, c.2.1 = ChangeMode.Added) → (replayLen n cs).isSome := by
  intro cs
  induction cs with
  | nil => intro n _; simp [replayLen]
  | cons c cs ih =>
    intro n h
    rw [replayLen, h c (List.mem_cons_self c cs)]
    exact ih (n + 1) fun x hx => h x (List.mem_cons_of_mem c hx)

/-- C10: `PatchFile::apply` is total whenever every `Deleted` change is in
range at the moment it is replayed (tracked by `replayLen` on the line
count); `Added` changes alone can never make it panic (an out-of-range index
appends); but a `Deleted` change whose index is out of range at replay time
makes `apply` panic (modelled as `none`) rather than being ignored. -/
theorem c10_apply_totality :
    (∀ (pf : PatchFile) (s : Str),
      (replayLen (splitNl s).length pf.changes).isSome → (pf.apply s).isSome) ∧
    (∀ (pf : PatchFile) (s : Str),
      (∀ c ∈ pf.changes, c.2.1 = ChangeMode.Added) → (pf.apply s).isSome) ∧
    PatchFile.apply ⟨['x'], [(1, ChangeMode.Deleted, [])]⟩ ['x'] = none := by
  refine ⟨?_, ?_, by decide⟩
  · intro pf s h
    obtain ⟨out, ho⟩ := replay_foldlM_isSome pf.changes (splitNl s) h
    unfold PatchFile.apply
    rw [ho]
    rfl
  · intro pf s h
    obtain ⟨out, ho⟩ :=
      replay_foldlM_isSome pf.changes (splitNl s)
        (replayLen_all_added pf.changes (splitNl s).length h)
    unfold PatchFile.apply
    rw [ho]
    rfl

/-- C10 witness: totality applied to a concrete in-range replay, and to a
concrete all-`Added` patch file. -/
theorem c10_apply_totality_witness :
    (PatchFile.apply ⟨['a'], [(0, ChangeMode.Deleted, ['a']), (5, ChangeMode.Added, ['b'])]⟩ ['a']).isSome ∧
    (PatchFile.apply ⟨[], [(9, ChangeMode.Added, ['c'])]⟩ []).isSome :=
  ⟨c10_apply_totality.1 _ ['a'] (by decide),
   c10_apply_totality.2.1 _ [] (by decide)⟩

end Lily
